import Mathlib

/-!
Verification of the i18n-ai-translator batching/grouping/reassembly pipeline.

The TypeScript sources are embedded shallowly:

* JSON objects (`Record<string, unknown>` whose leaves are strings) become
  `JTree`/`Obj`: ordered association lists of key/subtree pairs, mirroring
  JavaScript object insertion-order semantics.  Property writes
  (`obj[k] = v`) are modeled by `jsInsert` (update in place when the key is
  present, append otherwise), `Object.assign` by `jsAssign`, property reads
  by `jsLookup`, and the `in` operator by own-key membership.
* `flatten`, `unflatten`, `groupBySection` come from `src/parser.ts`
  (src/unnamed/part_002); `ungroupFromSections` from the implementation
  plan document, which carries its full source.
* `collectKeys`/`findMissingKeys` come from `src/diff.ts` (the pure key
  computation; file-system enumeration is abstracted into the list of
  comparison objects).
* `translateBatch` post-parse validation comes from `src/openai.ts`; the
  network call and JSON parsing are abstracted by handing the function the
  already-parsed reply mapping.
* The per-language orchestration comes from `src/translator.ts`.
-/

/-- A JSON value tree whose leaves are strings: the shape of parsed i18n
files after the string-coercion performed by `flatten`. -/
inductive JTree where
  | leaf (s : String) : JTree
  | node (children : List (String × JTree)) : JTree
deriving Repr

/-- A JavaScript object with string-tree values, in insertion order. -/
abbrev Obj := List (String × JTree)

/-- `FlattenedStrings` from src/types.ts: a flat mapping, in insertion
order. -/
abbrev FlatMap := List (String × String)

/-- `GroupedStrings` from src/types.ts. -/
abbrev Grouped := List (String × FlatMap)

/-- The keys of an association list, in order. -/
def keysOf (m : List (String × α)) : List String := m.map Prod.fst

/-- Property read `m[k]` (own keys only). -/
def jsLookup (m : List (String × α)) (k : String) : Option α :=
  match m with
  | [] => none
  | (k', v) :: rest => if k' = k then some v else jsLookup rest k

/-- Property write `m[k] = v`: updates the binding in place when `k` is
already present (JavaScript keeps the original insertion position),
appends it otherwise. -/
def jsInsert (m : List (String × α)) (k : String) (v : α) : List (String × α) :=
  match m with
  | [] => [(k, v)]
  | (k', v') :: rest =>
      if k' = k then (k', v) :: rest else (k', v') :: jsInsert rest k v

/-- `Object.assign(a, b)`: writes every binding of `b` into `a` in order. -/
def jsAssign (a b : List (String × α)) : List (String × α) :=
  b.foldl (fun acc p => jsInsert acc p.1 p.2) a

/-! ### Splitting keys at dots

`groupBySection` uses `key.indexOf(".")` / `key.slice`; `unflatten` uses
`key.split(".")`.  Both are modeled on the character list of the key: the
dot is ASCII, so splitting around the first `'.'` character agrees with the
JavaScript index arithmetic. -/

/-- Splits a character list at the first `'.'`: `none` when no dot occurs,
otherwise the characters before and after the first dot. -/
def breakAtDot : List Char → Option (List Char × List Char)
  | [] => none
  | c :: cs =>
      if c = '.' then some ([], cs)
      else
        match breakAtDot cs with
        | some (a, b) => some (c :: a, b)
        | none => none

/-- `key.indexOf(".")`-based decomposition from `groupBySection`
(src/parser.ts): the section is everything before the first dot (the whole
key when there is no dot), the remainder everything after it (empty when
there is no dot). -/
def splitFirstDot (k : String) : String × String :=
  match breakAtDot k.data with
  | none => (k, "")
  | some (a, b) => (String.mk a, String.mk b)

/-- `key.split(".")` on character lists: JavaScript `String.split` with a
one-character separator (no dot yields the whole key, `n` dots yield `n+1`
parts, so the result is never empty). -/
def splitDots : List Char → List (List Char)
  | [] => [[]]
  | c :: cs =>
      if c = '.' then [] :: splitDots cs
      else
        match splitDots cs with
        | h :: t => (c :: h) :: t
        | [] => [[c]]

/-- `prefix ? prefix + "." + key : key` from `flatten` (src/parser.ts). -/
def joinKey (pfx k : String) : String :=
  if pfx = "" then k else pfx ++ "." ++ k

/-! ### `flatten` (src/parser.ts)

`flattenAux pfx entries acc` models the loop body of `flatten` with the
accumulated result object `acc`; leaves write `String(value)` (already a
string here) via `result[newKey] = ...`, subtrees are flattened into a
fresh object and merged with `Object.assign`. -/

mutual

def flattenAux : String → List (String × JTree) → FlatMap → FlatMap
  | _, [], acc => acc
  | pfx, (k, t) :: rest, acc => flattenAux pfx rest (flattenEntry pfx k t acc)

def flattenEntry : String → String → JTree → FlatMap → FlatMap
  | pfx, k, .leaf s, acc => jsInsert acc (joinKey pfx k) s
  | pfx, k, .node ch, acc => jsAssign acc (flattenAux (joinKey pfx k) ch [])

end

/-- `flatten(obj)` with the default empty prefix. -/
def flatten (obj : Obj) : FlatMap := flattenAux "" obj []

/-! ### `unflatten` (src/parser.ts)

For each entry the key is split on `"."`; the code walks/creates
intermediate objects for all but the last segment and assigns the value at
the final segment.  Walking *through* an existing string leaf is a runtime
type error in the source (the `in` operator / property assignment on a
string primitive throws in strict mode); that is the `.error` case.
Assigning the final segment over an existing subtree silently replaces
it. -/

/-- One `unflatten` entry: walk/create the objects named by `parts`, then
assign `JTree.leaf v` at key `last` of the final object. -/
def setPath (obj : Obj) (parts : List String) (last : String) (v : String) :
    Except Unit Obj :=
  match parts with
  | [] => .ok (jsInsert obj last (.leaf v))
  | p :: rest =>
      match jsLookup obj p with
      | none => do
          let sub ← setPath [] rest last v
          .ok (jsInsert obj p (.node sub))
      | some (.node ch) => do
          let sub ← setPath ch rest last v
          .ok (jsInsert obj p (.node sub))
      | some (.leaf _) => .error ()

/-- Processes one `[key, value]` entry of the `unflatten` loop. -/
def unflattenStep (acc : Obj) (kv : String × String) : Except Unit Obj :=
  match h : splitDots kv.1.data with
  | [] => .ok acc
  | p :: ps =>
      let parts := String.mk p :: ps.map String.mk
      setPath acc parts.dropLast (parts.getLast (by simp)) kv.2

/-- `unflatten(flat)` from src/parser.ts. -/
def unflatten (flat : FlatMap) : Except Unit Obj :=
  flat.foldlM unflattenStep []

/-! ### `groupBySection` / `ungroupFromSections` -/

/-- The loop body of `groupBySection`: derive section and remainder from
the key, create the section bucket if absent, then write the remainder
binding into it. -/
def groupStep (acc : Grouped) (kv : String × String) : Grouped :=
  match jsLookup acc (splitFirstDot kv.1).1 with
  | none => jsInsert acc (splitFirstDot kv.1).1 (jsInsert [] (splitFirstDot kv.1).2 kv.2)
  | some sub => jsInsert acc (splitFirstDot kv.1).1 (jsInsert sub (splitFirstDot kv.1).2 kv.2)

/-- `groupBySection(flat)` from src/parser.ts: buckets every flat key by
the substring before its first dot, keyed inside the bucket by the
substring after it. -/
def groupBySection (flat : FlatMap) : Grouped :=
  flat.foldl groupStep []

/-- Key reconstruction shared by `ungroupFromSections` and
`filterGroupedByKeys`: the section alone when the remainder is empty,
otherwise `section + "." + remainder`. -/
def joinSR (sec rem : String) : String :=
  if rem = "" then sec else sec ++ "." ++ rem

/-- `ungroupFromSections(grouped)` from the implementation plan (the
function is imported by src/translator.ts from src/parser.ts; its full
source appears in docs/plans). -/
def ungroupFromSections (grouped : Grouped) : FlatMap :=
  grouped.foldl
    (fun acc sp =>
      sp.2.foldl (fun acc2 rv => jsInsert acc2 (joinSR sp.1 rv.1) rv.2) acc)
    []

/-! ### `collectKeys` / `findMissingKeys` (src/diff.ts)

The file enumeration of `findMissingKeys` is abstracted away: the function
below receives the parsed reference object and the list of parsed
comparison objects and performs the same key computation. -/

mutual

def collectKeysAux : String → List (String × JTree) → List String
  | _, [] => []
  | pfx, (k, t) :: rest => collectKeysEntry pfx k t ++ collectKeysAux pfx rest

def collectKeysEntry : String → String → JTree → List String
  | pfx, k, .leaf _ => [joinKey pfx k]
  | pfx, k, .node ch => collectKeysAux (joinKey pfx k) ch

end

/-- `collectKeys(obj)` with the default empty prefix. -/
def collectKeys (obj : Obj) : List String := collectKeysAux "" obj

/-- The pure core of `findMissingKeys(mainFilePath, translationsDir)`:
keys of the reference object that are contained in none of the comparison
objects' key lists. -/
def findMissingKeys (mainObj : Obj) (others : List Obj) : List String :=
  let mainKeys := collectKeys mainObj
  let otherFilesKeys := others.map collectKeys
  mainKeys.filter (fun key => otherFilesKeys.all (fun fileKeys => !fileKeys.contains key))

/-! ### Sorting key lists

`translateBatch` compares `Object.keys(...).sort()` of input and output.
JavaScript's default sort compares strings lexicographically; it is
modeled by insertion sort over a lexicographic comparison of the
character lists (any total order gives the same canonical-form property:
two key lists have equal sorts exactly when they are permutations). -/

/-- Lexicographic comparison of character lists. -/
def charListLe : List Char → List Char → Bool
  | [], _ => true
  | _ :: _, [] => false
  | a :: as, b :: bs =>
      if a < b then true
      else if b < a then false
      else charListLe as bs

/-- Lexicographic order on strings used to model JavaScript `sort()`. -/
def StrLe (a b : String) : Prop := charListLe a.data b.data = true

instance decStrLe : DecidableRel StrLe := fun a b =>
  inferInstanceAs (Decidable (charListLe a.data b.data = true))

/-- `keys.sort()`. -/
def sortKeys (l : List String) : List String := List.insertionSort StrLe l

/-! ### `translateBatch` (src/openai.ts)

The network round trip and the JSON parsing of the reply are abstracted:
the function receives the already-parsed reply object (`translated` in the
source).  `JSON.stringify` comparison of two sorted key arrays is equality
of the sorted key lists (stringify is injective on string arrays).  The
failure value records the expected and actual sorted key lists in full,
as the thrown message does. -/

inductive RunError where
  | keySetMismatch (expected got : List String)
  | structuralWrite
deriving Repr, DecidableEq

/-- Post-parse key-set validation of `translateBatch`: returns the parsed
reply when the sorted key lists agree, fails otherwise. -/
def translateBatch (strings translated : FlatMap) : Except RunError FlatMap :=
  let inputKeys := sortKeys (keysOf strings)
  let outputKeys := sortKeys (keysOf translated)
  if inputKeys = outputKeys then .ok translated
  else .error (.keySetMismatch inputKeys outputKeys)

/-! ### The per-language orchestration (src/translator.ts)

File reads, console output and the OpenAI client are abstracted:
`existing` is the parsed existing output file when it exists and parses
to a plain object (`none` when the file is absent or not an object — both
take the full-retranslation path in the source), and `oracle` yields the
parsed reply of the completion service for a section. -/

/-- `filterGroupedByKeys(grouped, allowedKeys)` from src/translator.ts. -/
def filterGroupedByKeys (grouped : Grouped) (allowedKeys : List String) : Grouped :=
  grouped.foldl
    (fun acc sp =>
      let fs := sp.2.foldl
        (fun facc rv =>
          if allowedKeys.contains (joinSR sp.1 rv.1) then jsInsert facc rv.1 rv.2 else facc)
        []
      if (keysOf fs).length > 0 then jsInsert acc sp.1 fs else acc)
    []

/-- The missing-key computation of the per-language loop:
`Object.keys(flattened).filter((k) => !existingKeys.has(k))`. -/
def missingKeysOf (flattened existingFlat : FlatMap) : List String :=
  (keysOf flattened).filter (fun k => !(keysOf existingFlat).contains k)

/-- The `existingFlat` / `toTranslateGrouped` pair the per-language loop
settles on before its section loop; `none` when the language is skipped
(`continue`) because nothing is missing. -/
def sectionsFor (missingOnly : Bool) (flattened : FlatMap) (existing : Option Obj) :
    Option (FlatMap × Grouped) :=
  match missingOnly, existing with
  | true, some t =>
      let existingFlat := flatten t
      let missingKeys := missingKeysOf flattened existingFlat
      if missingKeys = [] then none
      else some (existingFlat, filterGroupedByKeys (groupBySection flattened) missingKeys)
  | true, none => some ([], groupBySection flattened)
  | false, _ => some ([], groupBySection flattened)

/-- The sequential per-section loop: one `translateBatch` call per section,
stopping at the first failure. -/
def translateSections (oracle : String → FlatMap → FlatMap) (gs : Grouped) :
    Except RunError Grouped :=
  gs.foldlM
    (fun acc sp => do
      let translated ← translateBatch sp.2 (oracle sp.1 sp.2)
      .ok (jsInsert acc sp.1 translated))
    []

/-- Result of processing one target language: how many `translateBatch`
calls were issued and the file content written (`none` when skipped). -/
structure LangOutcome where
  calls : Nat
  written : Option Obj
deriving Repr

/-- The body of the per-target-language loop of `translate`
(src/translator.ts): skip when nothing is missing, otherwise translate
section by section, reassemble, merge over the existing flat mapping
(spread, so translated values win) and unflatten for persistence. -/
def processLanguage (missingOnly : Bool) (flattened : FlatMap) (existing : Option Obj)
    (oracle : String → FlatMap → FlatMap) : Except RunError LangOutcome :=
  match sectionsFor missingOnly flattened existing with
  | none => .ok ⟨0, none⟩
  | some (existingFlat, toTranslateGrouped) => do
      let translatedGrouped ← translateSections oracle toTranslateGrouped
      let translatedFlat := ungroupFromSections translatedGrouped
      let mergedFlat := jsAssign (jsAssign [] existingFlat) translatedFlat
      match unflatten mergedFlat with
      | .error _ => .error .structuralWrite
      | .ok mergedNested => .ok ⟨toTranslateGrouped.length, some mergedNested⟩

/-- The loop over target languages of `translate`: strictly sequential,
aborting the whole run at the first error.  Returns the written files (in
order) and the error that stopped the run, if any. -/
def runTranslate (missingOnly : Bool) (flattened : FlatMap) (langs : List String)
    (existingOf : String → Option Obj) (oracleOf : String → String → FlatMap → FlatMap) :
    List (String × Obj) × Option RunError :=
  match langs with
  | [] => ([], none)
  | l :: rest =>
      match processLanguage missingOnly flattened (existingOf l) (oracleOf l) with
      | .error e => ([], some e)
      | .ok o =>
          let res := runTranslate missingOnly flattened rest existingOf oracleOf
          ((match o.written with | some w => [(l, w)] | none => []) ++ res.1, res.2)

/-! ### Decidable equality for trees (used to evaluate concrete runs) -/

def decEqJTree : (a b : JTree) → Decidable (a = b)
  | .leaf s, .leaf t =>
      if h : s = t then .isTrue (by rw [h]) else .isFalse (by intro he; cases he; exact h rfl)
  | .leaf _, .node _ => .isFalse (by intro h; cases h)
  | .node _, .leaf _ => .isFalse (by intro h; cases h)
  | .node a, .node b =>
      let rec go : (x y : List (String × JTree)) → Decidable (x = y)
        | [], [] => .isTrue rfl
        | [], _ :: _ => .isFalse (by intro h; cases h)
        | _ :: _, [] => .isFalse (by intro h; cases h)
        | (k, t) :: xs, (k', t') :: ys =>
            if hk : k = k' then
              match decEqJTree t t' with
              | .isTrue ht =>
                  match go xs ys with
                  | .isTrue hxs => .isTrue (by rw [hk, ht, hxs])
                  | .isFalse hxs => .isFalse (by intro h; injection h with h1 h2; exact hxs h2)
              | .isFalse ht => .isFalse (by intro h; injection h with h1 h2; cases h1; exact ht rfl)
            else .isFalse (by intro h; injection h with h1 h2; cases h1; exact hk rfl)
      match go a b with
      | .isTrue h => .isTrue (by rw [h])
      | .isFalse h => .isFalse (by intro he; injection he with h1; exact h h1)

instance : DecidableEq JTree := decEqJTree

instance decEqLangOutcome : DecidableEq LangOutcome := fun a b =>
  if h1 : a.calls = b.calls then
    if h2 : a.written = b.written then
      .isTrue (by cases a; cases b; simp_all)
    else .isFalse (by intro he; cases he; exact h2 rfl)
  else .isFalse (by intro he; cases he; exact h1 rfl)

instance decEqExcept [DecidableEq ε] [DecidableEq α] : DecidableEq (Except ε α) := fun a b =>
  match a, b with
  | .ok x, .ok y =>
      if h : x = y then .isTrue (by rw [h]) else .isFalse (by intro he; cases he; exact h rfl)
  | .error x, .error y =>
      if h : x = y then .isTrue (by rw [h]) else .isFalse (by intro he; cases he; exact h rfl)
  | .ok _, .error _ => .isFalse (by intro h; cases h)
  | .error _, .ok _ => .isFalse (by intro h; cases h)

/-! ### Auxiliary notions used only to state and prove properties -/

/-- Whether `needle` occurs at the head of `hay`. -/
def startsWithChars : List Char → List Char → Bool
  | _, [] => true
  | [], _ :: _ => false
  | h :: t, n :: m => h = n && startsWithChars t m

/-- Whether `needle` occurs contiguously anywhere in `hay`. -/
def containsChars : List Char → List Char → Bool
  | [], needle => needle.isEmpty
  | hay@(_ :: t), needle => startsWithChars hay needle || containsChars t needle

/-- Verbatim substring occurrence, used to state placeholder preservation. -/
def containsSub (hay needle : String) : Bool := containsChars hay.data needle.data

/-- A key is dot-benign when it either has no dot or has at least one
character after its first dot; exactly these keys are reconstructed
verbatim by `joinSR` after `splitFirstDot`. -/
def goodKeyB (k : String) : Bool :=
  match breakAtDot k.data with
  | none => true
  | some (_, b) => !b.isEmpty

/-- A segment name is usable when it is nonempty and contains no dot. -/
def goodNameB (s : String) : Bool := !s.isEmpty && s.data.all (fun c => !(c = '.'))

mutual

/-- Well-formedness of an object: distinct keys, usable segment names,
well-formed subtrees. -/
def goodObjB : List (String × JTree) → Bool
  | [] => true
  | (k, t) :: rest =>
      goodNameB k && !((keysOf rest).contains k) && goodTreeB t && goodObjB rest

/-- Well-formedness of a subtree: nested objects are nonempty and
themselves well-formed. -/
def goodTreeB : JTree → Bool
  | .leaf _ => true
  | .node ch => !ch.isEmpty && goodObjB ch

end

mutual

/-- The depth-first leaf entries of an object with explicit segment paths:
the specification-level counterpart of `flatten`. -/
def pathEntries : List (String × JTree) → List (List String × String)
  | [] => []
  | (k, t) :: rest => pathEntriesOf k t ++ pathEntries rest

/-- The depth-first leaf entries of a single binding. -/
def pathEntriesOf (k : String) : JTree → List (List String × String)
  | .leaf s => [([k], s)]
  | .node ch => (pathEntries ch).map (fun pv => (k :: pv.1, pv.2))

end

/-- Joins a nonempty segment path with dots (the flat key of that path). -/
def joinSegs : List String → String
  | [] => ""
  | [s] => s
  | s :: rest => s ++ "." ++ joinSegs rest

/-- Reads the subtree at a segment path. -/
def getPath (obj : Obj) : List String → Option JTree
  | [] => some (.node obj)
  | p :: ps =>
      match jsLookup obj p with
      | some (.node ch) => getPath ch ps
      | some (.leaf s) => if ps.isEmpty then some (.leaf s) else none
      | none => none

/-- Replaces the children of the node at a segment path (assumed to
denote an existing node). -/
def setNodeAt (obj : Obj) : List String → Obj → Obj
  | [], newch => newch
  | p :: ps, newch =>
      match jsLookup obj p with
      | some (.node ch) => jsInsert obj p (.node (setNodeAt ch ps newch))
      | _ => obj

/-- A chain of nested single-key nodes ending in the given children. -/
def nestObj : List String → Obj → Obj
  | [], ch => ch
  | p :: ps, ch => [(p, .node (nestObj ps ch))]

/-- Joins a segment list onto a prefix the way `flatten` accumulates its
prefix argument. -/
def joinAfter (pfx : String) (segs : List String) : String :=
  segs.foldl joinKey pfx

/-- Whether path `p` is an initial run of path `q`. -/
def alongB : List String → List String → Bool
  | [], _ => true
  | _ :: _, [] => false
  | a :: as, b :: bs => a = b && alongB as bs

/-- The segment path of a flat key. -/
def segsOf (k : String) : List String := (splitDots k.data).map String.mk

/-- The list of full-key/value pairs denoted by a section map: each
remainder rejoined with its section name.  `ungroupFromSections` produces
exactly these pairs when the reconstructed keys are distinct. -/
def sectionPairs : Grouped → FlatMap
  | [] => []
  | sp :: rest => sp.2.map (fun rv => (joinSR sp.1 rv.1, rv.2)) ++ sectionPairs rest

/-- Recursive restatement of `filterGroupedByKeys` used to reason about
it: filter each section's bindings by reconstructed-key membership and
drop sections left empty. -/
def filterGroupedSpec (allowed : List String) : Grouped → Grouped
  | [] => []
  | sp :: rest =>
      let fs := sp.2.filter (fun rv => allowed.contains (joinSR sp.1 rv.1))
      if (keysOf fs).length > 0 then (sp.1, fs) :: filterGroupedSpec allowed rest
      else filterGroupedSpec allowed rest

/-- Well-formedness of a flat mapping for reconstruction: every segment of
every key nonempty, and the segment paths of distinct entries neither
equal nor one an initial run of the other. -/
def goodFlatB (flat : FlatMap) : Bool :=
  ((keysOf flat).map segsOf).all (fun p => p.all (fun s => !s.isEmpty)) &&
  List.Pairwise (fun p q => !(alongB p q) && !(alongB q p)) ((keysOf flat).map segsOf)

/-- Splits a nonempty segment list (given as head and tail) into its
initial part and its final segment: `frontLast a as = ((a :: as).dropLast,
(a :: as).getLast _)` in a directly computable form. -/
def frontLast : String → List String → List String × String
  | a, [] => ([], a)
  | a, b :: bs => ((a :: (frontLast b bs).1), (frontLast b bs).2)

/-- One `unflatten` entry presented by its full segment path: `setPath` at
the path's initial part with the final segment as assignment key.  An
empty path leaves the accumulator unchanged. -/
def setEnt (acc : Obj) (pv : List String × String) : Except Unit Obj :=
  match pv.1 with
  | [] => .ok acc
  | a :: as => setPath acc (frontLast a as).1 (frontLast a as).2 pv.2

mutual

/-- Structural well-formedness preserved by `unflatten`: distinct keys in
every object and no nested object that is empty. -/
def wfObjB : List (String × JTree) → Bool
  | [] => true
  | (k, t) :: rest => !((keysOf rest).contains k) && wfTreeB t && wfObjB rest

/-- Subtree counterpart of `wfObjB`. -/
def wfTreeB : JTree → Bool
  | .leaf _ => true
  | .node ch => !ch.isEmpty && wfObjB ch

end

/-- The leaf segment paths of an object, in depth-first order. -/
def leafPaths (obj : Obj) : List (List String) := (pathEntries obj).map Prod.fst

/-! ## General lemmas about the JavaScript-object primitives -/

@[simp] theorem jsLookup_nil (k : String) : jsLookup ([] : List (String × α)) k = none := rfl

@[simp] theorem jsLookup_cons (k' k : String) (v : α) (rest : List (String × α)) :
    jsLookup ((k', v) :: rest) k = if k' = k then some v else jsLookup rest k := rfl

@[simp] theorem jsInsert_nil (k : String) (v : α) :
    jsInsert ([] : List (String × α)) k v = [(k, v)] := rfl

@[simp] theorem jsAssign_nil (a : List (String × α)) : jsAssign a [] = a := rfl

theorem jsAssign_cons (a : List (String × α)) (p : String × α) (b : List (String × α)) :
    jsAssign a (p :: b) = jsAssign (jsInsert a p.1 p.2) b := rfl

@[simp] theorem keysOf_nil : keysOf ([] : List (String × α)) = [] := rfl

@[simp] theorem keysOf_cons (p : String × α) (rest : List (String × α)) :
    keysOf (p :: rest) = p.1 :: keysOf rest := rfl

@[simp] theorem keysOf_append (a b : List (String × α)) :
    keysOf (a ++ b) = keysOf a ++ keysOf b := by
  simp [keysOf]

theorem keysOf_jsInsert (m : List (String × α)) (k : String) (v : α) :
    keysOf (jsInsert m k v) = if k ∈ keysOf m then keysOf m else keysOf m ++ [k] := by
  induction m with
  | nil => simp [keysOf]
  | cons p rest ih =>
      obtain ⟨k', v'⟩ := p
      by_cases h : k' = k
      · subst h
        simp [jsInsert, keysOf]
      · simp only [jsInsert, if_neg h, keysOf, List.map_cons] at ih ⊢
        rw [ih]
        have hne : ¬(k = k') := fun he => h he.symm
        by_cases hm : k ∈ List.map Prod.fst rest
        · simp [List.mem_cons, hm, hne]
        · simp [List.mem_cons, hm, hne]

theorem jsInsert_of_not_mem (m : List (String × α)) (k : String) (v : α)
    (h : k ∉ keysOf m) : jsInsert m k v = m ++ [(k, v)] := by
  induction m with
  | nil => rfl
  | cons p rest ih =>
      obtain ⟨k', v'⟩ := p
      simp only [keysOf, List.map_cons, List.mem_cons] at h
      push_neg at h
      simp only [jsInsert, if_neg (Ne.symm h.1), List.cons_append]
      rw [ih h.2]

theorem jsLookup_jsInsert (m : List (String × α)) (k k' : String) (v : α) :
    jsLookup (jsInsert m k v) k' = if k = k' then some v else jsLookup m k' := by
  induction m with
  | nil => simp [jsInsert]
  | cons p rest ih =>
      obtain ⟨k₀, v₀⟩ := p
      by_cases h : k₀ = k
      · subst h
        by_cases h' : k₀ = k' <;> simp [jsInsert, jsLookup, h']
      · simp only [jsInsert, if_neg h, jsLookup_cons]
        by_cases h' : k₀ = k'
        · subst h'
          have hne : ¬(k = k₀) := fun he => h he.symm
          simp [ih, hne]
        · simp [ih, h']

theorem jsLookup_eq_none (m : List (String × α)) (k : String) (h : k ∉ keysOf m) :
    jsLookup m k = none := by
  induction m with
  | nil => rfl
  | cons p rest ih =>
      obtain ⟨k', v'⟩ := p
      simp only [keysOf, List.map_cons, List.mem_cons] at h
      push_neg at h
      simp [jsLookup, Ne.symm h.1, ih h.2]

theorem jsLookup_isSome (m : List (String × α)) (k : String) (h : k ∈ keysOf m) :
    (jsLookup m k).isSome := by
  induction m with
  | nil => simp [keysOf] at h
  | cons p rest ih =>
      obtain ⟨k', v'⟩ := p
      by_cases hk : k' = k
      · simp [jsLookup, hk]
      · simp only [keysOf, List.map_cons, List.mem_cons] at h
        rcases h with h | h
        · exact absurd h.symm hk
        · simp [jsLookup, hk, ih h]

theorem keysOf_nodup_jsInsert (m : List (String × α)) (k : String) (v : α)
    (h : (keysOf m).Nodup) : (keysOf (jsInsert m k v)).Nodup := by
  rw [keysOf_jsInsert]
  by_cases hm : k ∈ keysOf m
  · simpa [hm] using h
  · rw [if_neg hm]
    rw [List.nodup_append]
    refine ⟨h, List.nodup_singleton k, ?_⟩
    intro x hx hx1
    simp only [List.mem_singleton] at hx1
    exact hm (hx1 ▸ hx)

theorem jsAssign_of_disjoint : ∀ (b a : List (String × α)), (keysOf b).Nodup →
    (∀ k ∈ keysOf b, k ∉ keysOf a) → jsAssign a b = a ++ b := by
  intro b
  induction b with
  | nil =>
      intro a _ _
      simp
  | cons p rest ih =>
      intro a hb h
      obtain ⟨k, v⟩ := p
      rw [jsAssign_cons]
      have hk : k ∉ keysOf a := h k (by simp [keysOf])
      rw [jsInsert_of_not_mem a k v hk]
      simp only [keysOf, List.map_cons, List.nodup_cons] at hb
      rw [ih (a ++ [(k, v)]) hb.2 ?_]
      · simp
      · intro k' hk'
        have hk'b : k' ∈ keysOf ((k, v) :: rest) := by
          simp only [keysOf, List.map_cons, List.mem_cons]
          right
          exact hk'
        have hka := h k' hk'b
        have hkk : k' ≠ k := fun he => hb.1 (he ▸ hk')
        simp only [keysOf, List.map_append, List.mem_append, List.map_cons, List.map_nil,
          List.mem_singleton]
        push_neg
        exact ⟨hka, hkk⟩

theorem splitDots_ne_nil (cs : List Char) : splitDots cs ≠ [] := by
  induction cs with
  | nil => simp [splitDots]
  | cons c cs ih =>
      simp only [splitDots]
      by_cases h : c = '.'
      · simp [h]
      · simp only [if_neg h]
        cases hs : splitDots cs with
        | nil => simp
        | cons a t => simp

/-! ## Lemmas about the sort used for key-set comparison -/

theorem charListLe_total : ∀ as bs : List Char,
    charListLe as bs = true ∨ charListLe bs as = true := by
  intro as
  induction as with
  | nil =>
      intro bs
      left
      simp [charListLe]
  | cons a as ih =>
      intro bs
      cases bs with
      | nil =>
          right
          simp [charListLe]
      | cons b bs =>
          simp only [charListLe]
          rcases lt_trichotomy a b with h | h | h
          · left
            simp [h]
          · subst h
            simpa [lt_irrefl] using ih bs
          · right
            simp [h, not_lt_of_gt h]

theorem charListLe_trans : ∀ as bs cs : List Char,
    charListLe as bs = true → charListLe bs cs = true → charListLe as cs = true := by
  intro as
  induction as with
  | nil =>
      intro bs cs _ _
      simp [charListLe]
  | cons a as ih =>
      intro bs cs hab hbc
      cases bs with
      | nil => simp [charListLe] at hab
      | cons b bs =>
          cases cs with
          | nil => simp [charListLe] at hbc
          | cons c cs =>
              simp only [charListLe] at hab hbc ⊢
              rcases lt_trichotomy a b with h1 | h1 | h1
              · rcases lt_trichotomy b c with h2 | h2 | h2
                · simp [lt_trans h1 h2]
                · subst h2
                  simp [h1]
                · simp [h2, not_lt_of_gt h2] at hbc
              · subst h1
                rcases lt_trichotomy a c with h2 | h2 | h2
                · simp [h2]
                · subst h2
                  simp only [lt_irrefl, if_false] at hab hbc ⊢
                  exact ih bs cs hab hbc
                · simp [h2, not_lt_of_gt h2] at hbc
              · simp [h1, not_lt_of_gt h1] at hab

theorem charListLe_antisymm : ∀ as bs : List Char,
    charListLe as bs = true → charListLe bs as = true → as = bs := by
  intro as
  induction as with
  | nil =>
      intro bs _ hba
      cases bs with
      | nil => rfl
      | cons b bs => simp [charListLe] at hba
  | cons a as ih =>
      intro bs hab hba
      cases bs with
      | nil => simp [charListLe] at hab
      | cons b bs =>
          simp only [charListLe] at hab hba
          rcases lt_trichotomy a b with h | h | h
          · simp [h, not_lt_of_gt h] at hba
          · subst h
            simp only [lt_irrefl, if_false] at hab hba
            exact congrArg (a :: ·) (ih bs hab hba)
          · simp [h, not_lt_of_gt h] at hab

theorem strLe_total : IsTotal String StrLe :=
  ⟨fun a b => charListLe_total a.data b.data⟩

theorem strLe_trans : IsTrans String StrLe :=
  ⟨fun a b c => charListLe_trans a.data b.data c.data⟩

theorem strLe_antisymm : IsAntisymm String StrLe :=
  ⟨fun a b hab hba => by
    cases a
    cases b
    exact congrArg String.mk (charListLe_antisymm _ _ hab hba)⟩

theorem sortKeys_perm (l : List String) : (sortKeys l).Perm l :=
  List.perm_insertionSort StrLe l

theorem sortKeys_eq_iff (a b : List String) : sortKeys a = sortKeys b ↔ a.Perm b := by
  haveI := strLe_total
  haveI := strLe_trans
  haveI := strLe_antisymm
  constructor
  · intro h
    exact (sortKeys_perm a).symm.trans (h ▸ sortKeys_perm b)
  · intro h
    exact List.eq_of_perm_of_sorted
      ((sortKeys_perm a).trans (h.trans (sortKeys_perm b).symm))
      (List.sorted_insertionSort StrLe a) (List.sorted_insertionSort StrLe b)

theorem contains_true_iff (l : List String) (a : String) :
    (l.contains a = true) ↔ a ∈ l := List.elem_iff

theorem contains_false_iff (l : List String) (a : String) :
    (l.contains a = false) ↔ a ∉ l := by
  rw [Bool.eq_false_iff]
  exact not_congr List.elem_iff

/-! ## C4 — findMissingKeys semantics -/

/-- C4: a reference key is returned by `findMissingKeys` exactly when it is
absent from every comparison mapping (a key present in at least one
comparison is never reported), and with an empty comparison list the
result is exactly the full reference key list. -/
theorem findMissingKeys_spec (mainObj : Obj) (others : List Obj) :
    (∀ k, k ∈ findMissingKeys mainObj others ↔
        k ∈ collectKeys mainObj ∧ ∀ c ∈ others, k ∉ collectKeys c)
    ∧ findMissingKeys mainObj [] = collectKeys mainObj := by
  constructor
  · intro k
    simp only [findMissingKeys, List.mem_filter, List.all_eq_true, List.mem_map,
      Bool.not_eq_eq_eq_not, Bool.not_true]
    constructor
    · rintro ⟨hmem, hall⟩
      refine ⟨hmem, ?_⟩
      intro c hc
      exact (contains_false_iff _ _).mp (hall (collectKeys c) ⟨c, hc, rfl⟩)
    · rintro ⟨hmem, hall⟩
      refine ⟨hmem, ?_⟩
      rintro fk ⟨c, hc, rfl⟩
      exact (contains_false_iff _ _).mpr (hall c hc)
  · simp [findMissingKeys]

/-! ## C1 — translateBatch key-set validation -/

/-- C1: `translateBatch` returns a mapping only when the reply's key set
equals the input's key set exactly; whenever the key sets agree it
succeeds, and on any mismatch it fails with the error naming the expected
and actual sorted key lists in full. -/
theorem translateBatch_keyset (strings translated : FlatMap)
    (hs : (keysOf strings).Nodup) (ht : (keysOf translated).Nodup) :
    (∀ m, translateBatch strings translated = .ok m →
        m = translated ∧ ∀ k, k ∈ keysOf m ↔ k ∈ keysOf strings)
    ∧ ((∀ k, k ∈ keysOf translated ↔ k ∈ keysOf strings) →
        translateBatch strings translated = .ok translated)
    ∧ (¬(∀ k, k ∈ keysOf translated ↔ k ∈ keysOf strings) →
        translateBatch strings translated =
          .error (.keySetMismatch (sortKeys (keysOf strings)) (sortKeys (keysOf translated)))) := by
  by_cases h : sortKeys (keysOf strings) = sortKeys (keysOf translated)
  · have hperm : (keysOf strings).Perm (keysOf translated) := (sortKeys_eq_iff _ _).mp h
    refine ⟨?_, ?_, ?_⟩
    · intro m hm
      simp only [translateBatch, if_pos h, Except.ok.injEq] at hm
      subst hm
      exact ⟨rfl, fun k => hperm.symm.mem_iff⟩
    · intro _
      simp [translateBatch, h]
    · intro hn
      exact absurd (fun k => hperm.symm.mem_iff) hn
  · refine ⟨?_, ?_, ?_⟩
    · intro m hm
      simp [translateBatch, if_neg h] at hm
    · intro hiff
      exact absurd ((sortKeys_eq_iff _ _).mpr
        ((List.perm_ext_iff_of_nodup hs ht).mpr (fun k => (hiff k).symm))) h
    · intro _
      simp [translateBatch, if_neg h]

/-- Witness for C1 at concrete inputs: distinct key sets of equal size
(one renamed key) are rejected with both sorted key lists. -/
theorem translateBatch_keyset_witness :
    (keysOf [("a", "x"), ("b", "y")]).Nodup
    ∧ (keysOf [("a", "u"), ("c", "v")]).Nodup
    ∧ translateBatch [("a", "x"), ("b", "y")] [("a", "u"), ("c", "v")] =
        .error (.keySetMismatch (sortKeys (keysOf [("a", "x"), ("b", "y")]))
          (sortKeys (keysOf [("a", "u"), ("c", "v")]))) :=
  ⟨by decide, by decide,
    (translateBatch_keyset [("a", "x"), ("b", "y")] [("a", "u"), ("c", "v")]
        (by decide) (by decide)).2.2
      (fun hall => absurd ((hall "c").mp (by decide)) (by decide))⟩

/-! ## C5 — placeholder preservation is not validated -/

/-- C5 counterexample: a reply that drops the source placeholder
(pattern braces-name-braces) but keeps the key set intact is returned
successfully by `translateBatch` — no placeholder validation occurs, while
the claim requires a validation failure. -/
theorem translateBatch_accepts_dropped_placeholder :
    translateBatch [("greet", "Hello \x7b\x7bname\x7d\x7d")] [("greet", "Bonjour")] =
      .ok [("greet", "Bonjour")]
    ∧ containsSub "Hello \x7b\x7bname\x7d\x7d" "\x7b\x7bname\x7d\x7d" = true
    ∧ containsSub "Bonjour" "\x7b\x7bname\x7d\x7d" = false := by
  exact ⟨by decide, by decide, by decide⟩

/-- C5 amended: `translateBatch` validates only the key set — whenever the
sorted key lists of input and reply agree it returns the reply unchanged,
regardless of the placeholder content of the values. -/
theorem translateBatch_no_placeholder_validation (strings translated : FlatMap)
    (h : sortKeys (keysOf strings) = sortKeys (keysOf translated)) :
    translateBatch strings translated = .ok translated := by
  simp [translateBatch, h]

/-- Witness for the amended C5: a reply dropping the count placeholder is
accepted. -/
theorem translateBatch_no_placeholder_validation_witness :
    sortKeys (keysOf [("msg", "Hi \x7b\x7bcount\x7d\x7d")]) =
      sortKeys (keysOf [("msg", "Salut")])
    ∧ translateBatch [("msg", "Hi \x7b\x7bcount\x7d\x7d")] [("msg", "Salut")] =
        .ok [("msg", "Salut")] :=
  ⟨by decide, translateBatch_no_placeholder_validation _ _ (by decide)⟩

/-! ## C6 — incremental mode skips complete languages -/

/-- C6: in missing-only mode, when the existing output file flattens to a
key set containing every source key, the language is skipped entirely:
zero `translateBatch` calls are issued and nothing is written. -/
theorem processLanguage_skips_complete (flattened : FlatMap) (t : Obj)
    (oracle : String → FlatMap → FlatMap)
    (h : ∀ k ∈ keysOf flattened, k ∈ keysOf (flatten t)) :
    processLanguage true flattened (some t) oracle = .ok ⟨0, none⟩ := by
  have hm : missingKeysOf flattened (flatten t) = [] := by
    rw [missingKeysOf, List.filter_eq_nil_iff]
    intro k hk
    simp only [Bool.not_eq_true', Bool.not_eq_false]
    exact (contains_true_iff _ _).mpr (h k hk)
  simp [processLanguage, sectionsFor, hm]

/-- Witness for C6: an existing file holding both source keys is skipped. -/
theorem processLanguage_skips_complete_witness :
    (∀ k ∈ keysOf [("a", "x"), ("b", "y")],
        k ∈ keysOf (flatten [("a", JTree.leaf "u"), ("b", JTree.leaf "v")]))
    ∧ processLanguage true [("a", "x"), ("b", "y")]
        (some [("a", JTree.leaf "u"), ("b", JTree.leaf "v")]) (fun _ s => s) =
        .ok ⟨0, none⟩ :=
  ⟨by decide, processLanguage_skips_complete _ _ _ (by decide)⟩

/-! ## Splitting and joining keys -/

theorem breakAtDot_eq_some : ∀ (cs a b : List Char),
    breakAtDot cs = some (a, b) → cs = a ++ '.' :: b := by
  intro cs
  induction cs with
  | nil =>
      intro a b h
      simp [breakAtDot] at h
  | cons c cs ih =>
      intro a b h
      by_cases hc : c = '.'
      · subst hc
        rw [breakAtDot, if_pos rfl] at h
        simp only [Option.some.injEq, Prod.mk.injEq] at h
        rw [← h.1, ← h.2]
        rfl
      · rw [breakAtDot, if_neg hc] at h
        cases hb : breakAtDot cs with
        | none =>
            rw [hb] at h
            cases h
        | some p =>
            obtain ⟨a', b'⟩ := p
            rw [hb] at h
            simp only [Option.some.injEq, Prod.mk.injEq] at h
            rw [← h.1, ← h.2, ih a' b' hb]
            rfl

theorem mk_eq_empty_iff (b : List Char) : String.mk b = "" ↔ b = [] := by
  constructor
  · intro h
    have := congrArg String.data h
    simpa using this
  · intro h
    rw [h]

theorem joinSR_splitFirstDot (k : String) (h : goodKeyB k = true) :
    joinSR (splitFirstDot k).1 (splitFirstDot k).2 = k := by
  unfold goodKeyB at h
  unfold splitFirstDot
  cases hb : breakAtDot k.data with
  | none => simp [joinSR]
  | some p =>
      obtain ⟨a, b⟩ := p
      rw [hb] at h
      simp only [Bool.not_eq_true'] at h
      have hbnil : b ≠ [] := List.isEmpty_eq_false.mp h
      have hbne : ¬(String.mk b = "") := fun he => hbnil ((mk_eq_empty_iff b).mp he)
      simp only [joinSR, if_neg hbne]
      have hdata : k.data = a ++ '.' :: b := breakAtDot_eq_some k.data a b hb
      cases k with
      | mk d =>
          simp only [String.data] at hdata
          subst hdata
          exact congrArg String.mk (by simp)

/-! ## Further association-list lemmas -/

theorem jsLookup_none_iff (m : List (String × α)) (k : String) :
    jsLookup m k = none ↔ k ∉ keysOf m := by
  constructor
  · intro h hk
    have := jsLookup_isSome m k hk
    rw [h] at this
    cases this
  · exact jsLookup_eq_none m k

theorem jsLookup_decomp (m : List (String × α)) (k : String) (v : α)
    (h : jsLookup m k = some v) : ∃ x y, m = x ++ (k, v) :: y ∧ k ∉ keysOf x := by
  induction m with
  | nil => cases h
  | cons p rest ih =>
      obtain ⟨k', v'⟩ := p
      by_cases hk : k' = k
      · subst hk
        simp at h
        subst h
        exact ⟨[], rest, rfl, by simp⟩
      · simp only [jsLookup_cons, if_neg hk] at h
        obtain ⟨x, y, hxy, hnx⟩ := ih h
        refine ⟨(k', v') :: x, y, by rw [hxy, List.cons_append], ?_⟩
        simp only [keysOf_cons, List.mem_cons]
        push_neg
        exact ⟨fun he => hk he.symm, hnx⟩

theorem jsInsert_decomp (x y : List (String × α)) (k : String) (v w : α)
    (hx : k ∉ keysOf x) : jsInsert (x ++ (k, v) :: y) k w = x ++ (k, w) :: y := by
  induction x with
  | nil => simp [jsInsert]
  | cons p rest ih =>
      obtain ⟨k', v'⟩ := p
      simp only [keysOf_cons, List.mem_cons] at hx
      push_neg at hx
      simp only [List.cons_append, jsInsert, if_neg (Ne.symm hx.1)]
      exact congrArg (List.cons (k', v')) (ih hx.2)

theorem jsLookup_of_mem (m : List (String × α)) (k : String) (v : α)
    (hnd : (keysOf m).Nodup) (h : (k, v) ∈ m) : jsLookup m k = some v := by
  induction m with
  | nil => cases h
  | cons p rest ih =>
      obtain ⟨k', v'⟩ := p
      simp only [List.nodup_cons, keysOf_cons] at hnd
      rcases List.mem_cons.mp h with he | hm
      · rw [← he]
        simp
      · have hk : k' ≠ k := by
          intro hkk
          subst hkk
          exact hnd.1 (by simpa [keysOf] using List.mem_map_of_mem Prod.fst hm)
        simp only [jsLookup_cons, if_neg hk]
        exact ih hnd.2 hm

theorem mem_of_jsLookup (m : List (String × α)) (k : String) (v : α)
    (h : jsLookup m k = some v) : (k, v) ∈ m := by
  obtain ⟨x, y, hxy, -⟩ := jsLookup_decomp m k v h
  rw [hxy]
  simp

theorem jsLookup_eq_of_perm (m m' : List (String × α)) (hp : m.Perm m')
    (hnd : (keysOf m).Nodup) (k : String) : jsLookup m k = jsLookup m' k := by
  have hnd' : (keysOf m').Nodup := (hp.map Prod.fst).nodup_iff.mp hnd
  cases hv : jsLookup m k with
  | some v =>
      exact (jsLookup_of_mem m' k v hnd' (hp.mem_iff.mp (mem_of_jsLookup m k v hv))).symm
  | none =>
      rw [eq_comm, jsLookup_none_iff]
      intro hk
      exact (jsLookup_none_iff m k).mp hv ((hp.map Prod.fst).mem_iff.mpr hk)

/-! ## C2 — grouping and ungrouping -/

theorem sectionPairs_append (x y : Grouped) :
    sectionPairs (x ++ y) = sectionPairs x ++ sectionPairs y := by
  induction x with
  | nil => simp [sectionPairs]
  | cons sp rest ih => simp [sectionPairs, ih]

theorem mem_keys_sectionPairs (acc : Grouped) (sec rem : String) (sub : FlatMap)
    (hlu : jsLookup acc sec = some sub) (hr : rem ∈ keysOf sub) :
    joinSR sec rem ∈ keysOf (sectionPairs acc) := by
  obtain ⟨x, y, hxy, -⟩ := jsLookup_decomp acc sec sub hlu
  subst hxy
  rw [sectionPairs_append]
  simp only [keysOf_append, List.mem_append]
  right
  simp only [sectionPairs, keysOf_append, List.mem_append]
  left
  simp only [keysOf, List.map_map]
  obtain ⟨⟨r, w⟩, hmem, hre⟩ := List.mem_map.mp hr
  exact List.mem_map.mpr ⟨(r, w), hmem, congrArg (joinSR sec) hre⟩

theorem groupStep_eq_of_none (acc : Grouped) (kv : String × String)
    (h : jsLookup acc (splitFirstDot kv.1).1 = none) :
    groupStep acc kv =
      jsInsert acc (splitFirstDot kv.1).1 (jsInsert [] (splitFirstDot kv.1).2 kv.2) := by
  unfold groupStep
  rw [h]

theorem groupStep_eq_of_some (acc : Grouped) (kv : String × String) (sub : FlatMap)
    (h : jsLookup acc (splitFirstDot kv.1).1 = some sub) :
    groupStep acc kv =
      jsInsert acc (splitFirstDot kv.1).1 (jsInsert sub (splitFirstDot kv.1).2 kv.2) := by
  unfold groupStep
  rw [h]

theorem groupStep_pairs (acc : Grouped) (kv : String × String) (hg : goodKeyB kv.1 = true)
    (hf : kv.1 ∉ keysOf (sectionPairs acc)) :
    (sectionPairs (groupStep acc kv)).Perm (sectionPairs acc ++ [kv]) := by
  have hjoin := joinSR_splitFirstDot kv.1 hg
  cases hlu : jsLookup acc (splitFirstDot kv.1).1 with
  | none =>
      rw [groupStep_eq_of_none acc kv hlu]
      have hmem : (splitFirstDot kv.1).1 ∉ keysOf acc := (jsLookup_none_iff _ _).mp hlu
      rw [jsInsert_of_not_mem _ _ _ hmem, sectionPairs_append]
      simp [sectionPairs, hjoin]
  | some sub =>
      rw [groupStep_eq_of_some acc kv sub hlu]
      obtain ⟨x, y, hxy, hnx⟩ := jsLookup_decomp acc _ sub hlu
      have hrem : (splitFirstDot kv.1).2 ∉ keysOf sub := by
        intro hr
        exact hf (hjoin ▸ mem_keys_sectionPairs acc _ _ sub hlu hr)
      rw [hxy, jsInsert_decomp x y _ sub _ hnx]
      rw [jsInsert_of_not_mem sub _ _ hrem]
      simp only [sectionPairs_append, sectionPairs, List.map_append, List.map_cons,
        List.map_nil, hjoin, Prod.mk.eta, List.append_nil]
      have hassoc : (sectionPairs x ++
          (sub.map (fun rv => (joinSR (splitFirstDot kv.1).1 rv.1, rv.2)) ++ sectionPairs y)) ++
            [kv]
          = sectionPairs x ++
            (sub.map (fun rv => (joinSR (splitFirstDot kv.1).1 rv.1, rv.2)) ++
              (sectionPairs y ++ [kv])) := by
        simp [List.append_assoc]
      rw [hassoc]
      refine List.Perm.append_left _ ?_
      rw [List.append_assoc]
      exact List.Perm.append_left _ List.perm_append_comm

theorem groupFold_pairs : ∀ (F : FlatMap) (acc : Grouped),
    (∀ k ∈ keysOf F, goodKeyB k = true) → (keysOf F).Nodup →
    (∀ k ∈ keysOf F, k ∉ keysOf (sectionPairs acc)) →
    (sectionPairs (F.foldl groupStep acc)).Perm (sectionPairs acc ++ F) := by
  intro F
  induction F with
  | nil =>
      intro acc _ _ _
      simp
  | cons kv F ih =>
      intro acc hg hnd hf
      simp only [List.foldl_cons]
      have hstep := groupStep_pairs acc kv (hg kv.1 (by simp)) (hf kv.1 (by simp))
      have hkeysstep : (keysOf (sectionPairs (groupStep acc kv))).Perm
          (keysOf (sectionPairs acc) ++ [kv.1]) := by
        simpa [keysOf] using hstep.map Prod.fst
      simp only [keysOf_cons, List.nodup_cons] at hnd
      have ihh := ih (groupStep acc kv)
        (fun k' hk' => hg k' (by simp [hk']))
        hnd.2
        (fun k' hk' hmem => by
          rcases List.mem_append.mp (hkeysstep.mem_iff.mp hmem) with h1 | h1
          · exact hf k' (by simp [hk']) h1
          · simp only [List.mem_singleton] at h1
            exact hnd.1 (h1 ▸ hk'))
      refine ihh.trans ?_
      refine (hstep.append_right F).trans ?_
      simp

theorem sectionPairs_groupBySection (F : FlatMap)
    (hg : ∀ k ∈ keysOf F, goodKeyB k = true) (hnd : (keysOf F).Nodup) :
    (sectionPairs (groupBySection F)).Perm F := by
  simpa [sectionPairs] using groupFold_pairs F [] hg hnd (by simp [sectionPairs])

theorem ungroup_inner : ∀ (l : FlatMap) (acc : FlatMap) (sec : String),
    (keysOf (l.map (fun rv => (joinSR sec rv.1, rv.2)))).Nodup →
    (∀ kk ∈ keysOf (l.map (fun rv => (joinSR sec rv.1, rv.2))), kk ∉ keysOf acc) →
    l.foldl (fun acc2 rv => jsInsert acc2 (joinSR sec rv.1) rv.2) acc
      = acc ++ l.map (fun rv => (joinSR sec rv.1, rv.2)) := by
  intro l
  induction l with
  | nil =>
      intro acc sec _ _
      simp
  | cons rv l ih =>
      intro acc sec hnd hf
      obtain ⟨r, w⟩ := rv
      simp only [List.map_cons, keysOf_cons, List.nodup_cons] at hnd hf
      simp only [List.foldl_cons]
      rw [jsInsert_of_not_mem acc _ _ (hf (joinSR sec r) (List.mem_cons_self _ _))]
      rw [ih (acc ++ [(joinSR sec r, w)]) sec hnd.2 ?_]
      · simp
      · intro kk hkk
        simp only [keysOf_append, List.mem_append]
        push_neg
        constructor
        · exact hf kk (List.mem_cons_of_mem _ hkk)
        · simp only [keysOf_cons, keysOf_nil, List.mem_singleton]
          intro he
          exact hnd.1 (he ▸ hkk)

theorem ungroup_outer : ∀ (G : Grouped) (acc : FlatMap),
    (keysOf (acc ++ sectionPairs G)).Nodup →
    G.foldl (fun acc sp =>
        sp.2.foldl (fun acc2 rv => jsInsert acc2 (joinSR sp.1 rv.1) rv.2) acc) acc
      = acc ++ sectionPairs G := by
  intro G
  induction G with
  | nil =>
      intro acc _
      simp [sectionPairs]
  | cons sp G ih =>
      intro acc hnd
      simp only [sectionPairs, keysOf_append, List.nodup_append] at hnd
      obtain ⟨hna, hrest, hdisj⟩ := hnd
      simp only [List.foldl_cons]
      rw [ungroup_inner sp.2 acc sp.1 hrest.1 ?_]
      · rw [ih (acc ++ sp.2.map (fun rv => (joinSR sp.1 rv.1, rv.2))) ?_]
        · simp [sectionPairs]
        · simp only [keysOf_append, List.nodup_append]
          refine ⟨⟨hna, hrest.1, ?_⟩, hrest.2.1, ?_⟩
          · intro kk hka hkb
            exact hdisj hka (by simp [hkb])
          · intro kk hkk hpg
            simp only [List.mem_append] at hkk
            rcases hkk with hkk | hkk
            · exact hdisj hkk (by simp [hpg])
            · exact hrest.2.2 hkk hpg
      · intro kk hkk hka
        exact hdisj hka (by simp [hkk])

theorem ungroupFromSections_eq_sectionPairs (G : Grouped)
    (hnd : (keysOf (sectionPairs G)).Nodup) :
    ungroupFromSections G = sectionPairs G := by
  have := ungroup_outer G [] (by simpa using hnd)
  simpa [ungroupFromSections] using this

/-- C2 amended: for a flat mapping with distinct keys in which every key
that contains a dot has at least one character after its first dot,
ungrouping after grouping restores the mapping exactly as an object: the
key multiset is unchanged and every key reads back its original value.
(The entry order may differ, which is invisible to JavaScript object
equality.) -/
theorem ungroup_group_roundtrip (F : FlatMap)
    (hnd : (keysOf F).Nodup) (hg : ∀ k ∈ keysOf F, goodKeyB k = true) :
    (keysOf (ungroupFromSections (groupBySection F))).Perm (keysOf F)
    ∧ ∀ k, jsLookup (ungroupFromSections (groupBySection F)) k = jsLookup F k := by
  have hperm := sectionPairs_groupBySection F hg hnd
  have hknd : (keysOf (sectionPairs (groupBySection F))).Nodup :=
    (hperm.map Prod.fst).nodup_iff.mpr hnd
  rw [ungroupFromSections_eq_sectionPairs _ hknd]
  exact ⟨hperm.map Prod.fst, fun k => jsLookup_eq_of_perm _ _ hperm hknd k⟩

/-- C2 counterexample: for the key with a trailing dot the round trip is
not the identity — the empty remainder is reconstructed as the bare
section name, so the key changes. -/
theorem ungroup_group_not_id :
    ungroupFromSections (groupBySection [("a.", "v")]) = [("a", "v")]
    ∧ ungroupFromSections (groupBySection [("a.", "v")]) ≠ [("a.", "v")] := by
  exact ⟨by decide, by decide⟩

/-- Witness for the amended C2 at the worked example of the spec plus a
dotless top-level key. -/
theorem ungroup_group_roundtrip_witness :
    (keysOf [("auth.login.title", "Entrar"), ("nav.home", "Home"), ("top", "x")]).Nodup
    ∧ (∀ k ∈ keysOf [("auth.login.title", "Entrar"), ("nav.home", "Home"), ("top", "x")],
        goodKeyB k = true)
    ∧ jsLookup (ungroupFromSections (groupBySection
        [("auth.login.title", "Entrar"), ("nav.home", "Home"), ("top", "x")])) "top"
      = jsLookup [("auth.login.title", "Entrar"), ("nav.home", "Home"), ("top", "x")] "top" :=
  ⟨by decide, by decide,
    (ungroup_group_roundtrip [("auth.login.title", "Entrar"), ("nav.home", "Home"), ("top", "x")]
      (by decide) (by decide)).2 "top"⟩

/-! ## C10 — unflatten on conflicting key paths -/

theorem splitDots_no_dot : ∀ a : List Char, (∀ c ∈ a, c ≠ '.') → splitDots a = [a] := by
  intro a
  induction a with
  | nil =>
      intro _
      rfl
  | cons c a ih =>
      intro h
      have hc : c ≠ '.' := h c (by simp)
      rw [splitDots, if_neg hc, ih (fun c' hc' => h c' (by simp [hc']))]

theorem splitDots_append_dot : ∀ (a b : List Char), (∀ c ∈ a, c ≠ '.') →
    splitDots (a ++ '.' :: b) = a :: splitDots b := by
  intro a
  induction a with
  | nil =>
      intro b _
      simp [splitDots]
  | cons c a ih =>
      intro b h
      have hc : c ≠ '.' := h c (by simp)
      rw [List.cons_append, splitDots, if_neg hc, ih b (fun c' hc' => h c' (by simp [hc']))]

theorem setPath_nil_ok : ∀ (parts : List String) (last v : String),
    ∃ sub, setPath [] parts last v = .ok sub := by
  intro parts
  induction parts with
  | nil =>
      intro last v
      exact ⟨[(last, .leaf v)], rfl⟩
  | cons p rest ih =>
      intro last v
      obtain ⟨sub, hsub⟩ := ih last v
      refine ⟨[(p, .node sub)], ?_⟩
      simp only [setPath, jsLookup_nil, hsub]
      rfl

theorem unflattenStep_eq (acc : Obj) (key v : String) (p : List Char) (ps : List (List Char))
    (hsplit : splitDots key.data = p :: ps) :
    unflattenStep acc (key, v) =
      setPath acc (String.mk p :: ps.map String.mk).dropLast
        ((String.mk p :: ps.map String.mk).getLast (by simp)) v := by
  unfold unflattenStep
  split
  · next heq =>
      rw [hsplit] at heq
      cases heq
  · next p' ps' heq =>
      rw [hsplit] at heq
      injection heq with h1 h2
      subst h1
      subst h2
      rfl

/-- C10 counterexample: the claim quantifies over every flat mapping whose
entries contain a dotted key followed later by the bare key; when a third
entry then descends below the overwritten bare key, `unflatten` does not
return a mapping without the dotted entry — it throws (property access on
a string primitive), modeled as `.error`. -/
theorem unflatten_conflict_error :
    unflatten [("k.s", "1"), ("k", "2"), ("k.u", "3")] = .error () := by decide

/-- C10 amended: for the two-entry mapping with the dotted key first and
the bare (dot-free) key k second, `unflatten` raises no error and silently
overwrites the object built for k with the leaf, so the dotted entry is
absent from the result. -/
theorem unflatten_overwrites (k s v1 v2 : String) (hk : ∀ c ∈ k.data, c ≠ '.') :
    unflatten [(k ++ "." ++ s, v1), (k, v2)] = .ok [(k, JTree.leaf v2)] := by
  have hdata : (k ++ "." ++ s).data = k.data ++ '.' :: s.data := by
    cases k with
    | mk a =>
        cases s with
        | mk b => simp
  have hsplit1 : splitDots (k ++ "." ++ s).data = k.data :: splitDots s.data := by
    rw [hdata]
    exact splitDots_append_dot k.data s.data hk
  have hsplit2 : splitDots k.data = [k.data] := splitDots_no_dot k.data hk
  cases hs : splitDots s.data with
  | nil => exact absurd hs (splitDots_ne_nil s.data)
  | cons r rs =>
      rw [hs] at hsplit1
      have hstep1 := unflattenStep_eq [] (k ++ "." ++ s) v1 k.data ([r] ++ rs) (by simpa using hsplit1)
      have hmkk : String.mk k.data = k := by cases k; rfl
      rw [List.singleton_append] at hstep1
      simp only [List.map_cons, List.dropLast_cons₂, hmkk] at hstep1
      rw [List.getLast_cons (by simp)] at hstep1
      obtain ⟨sub, hsub⟩ :=
        setPath_nil_ok ((String.mk r :: rs.map String.mk).dropLast)
          ((String.mk r :: rs.map String.mk).getLast (by simp)) v1
      have hstep1' : unflattenStep [] (k ++ "." ++ s, v1) = .ok [(k, .node sub)] := by
        rw [hstep1]
        simp only [setPath, jsLookup_nil, hsub]
        rfl
      have hstep2 := unflattenStep_eq [(k, .node sub)] k v2 k.data [] hsplit2
      have hstep2' : unflattenStep [(k, .node sub)] (k, v2) = .ok [(k, .leaf v2)] := by
        rw [hstep2]
        simp only [List.map_nil, List.dropLast_single, List.getLast_singleton, hmkk]
        simp [setPath, jsInsert]
      show List.foldlM unflattenStep [] [(k ++ "." ++ s, v1), (k, v2)] = .ok [(k, JTree.leaf v2)]
      rw [List.foldlM_cons, hstep1']
      show List.foldlM unflattenStep [(k, .node sub)] [(k, v2)] = .ok [(k, JTree.leaf v2)]
      rw [List.foldlM_cons, hstep2']
      rfl

/-- Witness for the amended C10. -/
theorem unflatten_overwrites_witness :
    (∀ c ∈ ("top" : String).data, c ≠ '.')
    ∧ unflatten [("top" ++ "." ++ "sub", "1"), ("top", "2")] = .ok [("top", JTree.leaf "2")] :=
  ⟨by decide, unflatten_overwrites "top" "sub" "1" "2" (by decide)⟩

/-! ## C8 — fail-fast abort of the whole run -/

theorem translateSections_fold_error (oracle : String → FlatMap → FlatMap)
    (sp : String × FlatMap) (e : RunError)
    (herr : translateBatch sp.2 (oracle sp.1 sp.2) = .error e) :
    ∀ (gs1 : Grouped) (gs2 : Grouped) (acc : Grouped),
    (∀ p ∈ gs1, ∃ m, translateBatch p.2 (oracle p.1 p.2) = .ok m) →
    List.foldlM
      (fun acc sp => do
        let translated ← translateBatch sp.2 (oracle sp.1 sp.2)
        Except.ok (jsInsert acc sp.1 translated))
      acc (gs1 ++ sp :: gs2) = .error e := by
  intro gs1
  induction gs1 with
  | nil =>
      intro gs2 acc _
      rw [List.nil_append, List.foldlM_cons, herr]
      rfl
  | cons q gs1 ih =>
      intro gs2 acc hok
      obtain ⟨m, hm⟩ := hok q (by simp)
      rw [List.cons_append, List.foldlM_cons, hm]
      exact ih gs2 (jsInsert acc q.1 m) (fun p hp => hok p (by simp [hp]))

theorem translateSections_error (oracle : String → FlatMap → FlatMap)
    (gs1 gs2 : Grouped) (sp : String × FlatMap) (e : RunError)
    (hok : ∀ p ∈ gs1, ∃ m, translateBatch p.2 (oracle p.1 p.2) = .ok m)
    (herr : translateBatch sp.2 (oracle sp.1 sp.2) = .error e) :
    translateSections oracle (gs1 ++ sp :: gs2) = .error e :=
  translateSections_fold_error oracle sp e herr gs1 gs2 [] hok

theorem processLanguage_error (missingOnly : Bool) (flattened : FlatMap)
    (existing : Option Obj) (oracle : String → FlatMap → FlatMap)
    (ef : FlatMap) (gs1 gs2 : Grouped) (sp : String × FlatMap) (e : RunError)
    (hsec : sectionsFor missingOnly flattened existing = some (ef, gs1 ++ sp :: gs2))
    (hok : ∀ p ∈ gs1, ∃ m, translateBatch p.2 (oracle p.1 p.2) = .ok m)
    (herr : translateBatch sp.2 (oracle sp.1 sp.2) = .error e) :
    processLanguage missingOnly flattened existing oracle = .error e := by
  simp only [processLanguage, hsec]
  rw [translateSections_error oracle gs1 gs2 sp e hok herr]
  rfl

theorem runTranslate_writes_langs (missingOnly : Bool) (flattened : FlatMap)
    (existingOf : String → Option Obj) (oracleOf : String → String → FlatMap → FlatMap) :
    ∀ (langs : List String) (lw : String × Obj),
    lw ∈ (runTranslate missingOnly flattened langs existingOf oracleOf).1 → lw.1 ∈ langs := by
  intro langs
  induction langs with
  | nil =>
      intro lw h
      simp [runTranslate] at h
  | cons l rest ih =>
      intro lw h
      rw [runTranslate] at h
      cases hp : processLanguage missingOnly flattened (existingOf l) (oracleOf l) with
      | error e =>
          rw [hp] at h
          simp at h
      | ok o =>
          rw [hp] at h
          simp only [List.mem_append] at h
          rcases h with h | h
          · cases hw : o.written with
            | none =>
                rw [hw] at h
                cases h
            | some w =>
                rw [hw] at h
                simp only [List.mem_singleton] at h
                subst h
                simp
          · simp [ih lw h]

/-- C8: when `translateBatch` fails on some section of a target language
(all earlier sections of that language succeeding), the whole run aborts
with that error: the languages before it contribute exactly their writes,
the failing language writes nothing, and the languages after it are never
processed (the result does not depend on them). -/
theorem runTranslate_failfast (missingOnly : Bool) (flattened : FlatMap)
    (pre : List String) (l : String) (post : List String)
    (existingOf : String → Option Obj) (oracleOf : String → String → FlatMap → FlatMap)
    (ef : FlatMap) (gs1 gs2 : Grouped) (sp : String × FlatMap) (e : RunError)
    (hpre : ∀ l' ∈ pre, ∃ o, processLanguage missingOnly flattened (existingOf l') (oracleOf l')
        = .ok o)
    (hlp : l ∉ pre)
    (hsec : sectionsFor missingOnly flattened (existingOf l) = some (ef, gs1 ++ sp :: gs2))
    (hok : ∀ p ∈ gs1, ∃ m, translateBatch p.2 (oracleOf l p.1 p.2) = .ok m)
    (herr : translateBatch sp.2 (oracleOf l sp.1 sp.2) = .error e) :
    runTranslate missingOnly flattened (pre ++ l :: post) existingOf oracleOf
      = ((runTranslate missingOnly flattened pre existingOf oracleOf).1, some e)
    ∧ (∀ w, (l, w) ∉ (runTranslate missingOnly flattened (pre ++ l :: post) existingOf oracleOf).1)
    ∧ (∀ post', runTranslate missingOnly flattened (pre ++ l :: post) existingOf oracleOf
        = runTranslate missingOnly flattened (pre ++ l :: post') existingOf oracleOf) := by
  have herrl := processLanguage_error missingOnly flattened (existingOf l) (oracleOf l)
    ef gs1 gs2 sp e hsec hok herr
  have main : ∀ (pre' : List String),
      (∀ l' ∈ pre', ∃ o, processLanguage missingOnly flattened (existingOf l') (oracleOf l')
          = .ok o) →
      runTranslate missingOnly flattened (pre' ++ l :: post) existingOf oracleOf
        = ((runTranslate missingOnly flattened pre' existingOf oracleOf).1, some e) := by
    intro pre'
    induction pre' with
    | nil =>
        intro _
        simp [runTranslate, herrl]
    | cons l' rest ih =>
        intro hpre'
        obtain ⟨o, ho⟩ := hpre' l' (by simp)
        have ihh := ih (fun l'' hl'' => hpre' l'' (by simp [hl'']))
        simp [List.cons_append, runTranslate, ho, ihh]
  refine ⟨main pre hpre, ?_, ?_⟩
  · intro w hw
    rw [main pre hpre] at hw
    exact hlp (runTranslate_writes_langs missingOnly flattened existingOf oracleOf pre (l, w) hw)
  · intro post'
    have main' : ∀ (pre' : List String),
        (∀ l' ∈ pre', ∃ o, processLanguage missingOnly flattened (existingOf l') (oracleOf l')
            = .ok o) →
        runTranslate missingOnly flattened (pre' ++ l :: post') existingOf oracleOf
          = ((runTranslate missingOnly flattened pre' existingOf oracleOf).1, some e) := by
      intro pre'
      induction pre' with
      | nil =>
          intro _
          simp [runTranslate, herrl]
      | cons l' rest ih =>
          intro hpre'
          obtain ⟨o, ho⟩ := hpre' l' (by simp)
          have ihh := ih (fun l'' hl'' => hpre' l'' (by simp [hl'']))
          simp [List.cons_append, runTranslate, ho, ihh]
    rw [main pre hpre, main' pre hpre]

/-- Witness for C8: the first language succeeds, the second fails with a
renamed key; the run keeps the first language's write and stops. -/
theorem runTranslate_failfast_witness :
    sectionsFor false [("a", "x")] ((fun _ : String => (none : Option Obj)) "de")
        = some ([], [] ++ ("a", [("", "x")]) :: [])
    ∧ translateBatch ("a", [("", "x")]).2
        ((fun (l _ : String) (st : FlatMap) => if l = "de" then [("bad", "y")] else st)
          "de" ("a", [("", "x")]).1 ("a", [("", "x")]).2)
        = .error (.keySetMismatch [""] ["bad"])
    ∧ runTranslate false [("a", "x")] (["es"] ++ "de" :: [])
        (fun _ => none)
        (fun l _ st => if l = "de" then [("bad", "y")] else st)
      = ((runTranslate false [("a", "x")] ["es"]
          (fun _ => none)
          (fun l _ st => if l = "de" then [("bad", "y")] else st)).1,
         some (.keySetMismatch [""] ["bad"])) :=
  ⟨by decide, by decide,
    (runTranslate_failfast false [("a", "x")] ["es"] "de" []
      (fun _ => none)
      (fun l _ st => if l = "de" then [("bad", "y")] else st)
      [] [] [] ("a", [("", "x")]) (.keySetMismatch [""] ["bad"])
      (by
        intro l' hl'
        simp only [List.mem_singleton] at hl'
        subst hl'
        exact ⟨⟨1, some [("a", JTree.leaf "x")]⟩, by decide⟩)
      (by decide)
      (by decide)
      (by simp)
      (by decide)).1⟩

/-! ## C7 — incremental restriction and merge -/

theorem keysOf_nodup_jsAssign : ∀ (b a : List (String × α)), (keysOf a).Nodup →
    (keysOf (jsAssign a b)).Nodup := by
  intro b
  induction b with
  | nil =>
      intro a h
      simpa using h
  | cons p rest ih =>
      intro a h
      rw [jsAssign_cons]
      exact ih _ (keysOf_nodup_jsInsert a p.1 p.2 h)

theorem jsLookup_jsAssign_of_not_mem : ∀ (b a : List (String × α)) (k : String),
    k ∉ keysOf b → jsLookup (jsAssign a b) k = jsLookup a k := by
  intro b
  induction b with
  | nil =>
      intro a k _
      rfl
  | cons p rest ih =>
      intro a k hk
      simp only [keysOf_cons, List.mem_cons] at hk
      push_neg at hk
      rw [jsAssign_cons, ih _ k hk.2, jsLookup_jsInsert]
      rw [if_neg (fun he => hk.1 he.symm)]

theorem jsLookup_jsAssign_of_mem : ∀ (b a : List (String × α)) (k : String),
    (keysOf b).Nodup → k ∈ keysOf b → jsLookup (jsAssign a b) k = jsLookup b k := by
  intro b
  induction b with
  | nil =>
      intro a k _ hk
      simp at hk
  | cons q rest ih =>
      intro a k hnd hk
      obtain ⟨k0, v0⟩ := q
      simp only [keysOf_cons, List.nodup_cons] at hnd
      rw [jsAssign_cons]
      simp only [keysOf_cons, List.mem_cons] at hk
      by_cases hmem : k ∈ keysOf rest
      · rw [ih _ k hnd.2 hmem, jsLookup_cons]
        rw [if_neg (fun he => hnd.1 (by rw [he]; exact hmem))]
      · rcases hk with hk | hk
        · subst hk
          rw [jsLookup_jsAssign_of_not_mem rest _ k hmem, jsLookup_jsInsert]
          simp
        · exact absurd hk hmem

theorem jsAssign_empty_eq (m : List (String × α)) (h : (keysOf m).Nodup) :
    jsAssign [] m = m := by
  simpa using jsAssign_of_disjoint m [] h (by simp)

mutual

theorem flattenAux_keys_nodup : ∀ (pfx : String) (obj : List (String × JTree)) (acc : FlatMap),
    (keysOf acc).Nodup → (keysOf (flattenAux pfx obj acc)).Nodup
  | _, [], _, h => h
  | pfx, (k, t) :: rest, acc, h =>
      flattenAux_keys_nodup pfx rest _ (flattenEntry_keys_nodup pfx k t acc h)

theorem flattenEntry_keys_nodup : ∀ (pfx k : String) (t : JTree) (acc : FlatMap),
    (keysOf acc).Nodup → (keysOf (flattenEntry pfx k t acc)).Nodup
  | pfx, k, .leaf s, acc, h => keysOf_nodup_jsInsert acc (joinKey pfx k) s h
  | pfx, k, .node ch, acc, h => keysOf_nodup_jsAssign (flattenAux (joinKey pfx k) ch []) acc h

end

theorem flatten_keys_nodup (obj : Obj) : (keysOf (flatten obj)).Nodup :=
  flattenAux_keys_nodup "" obj [] (by simp)

theorem ungroup_inner_nodup : ∀ (l : FlatMap) (acc : FlatMap) (sec : String),
    (keysOf acc).Nodup →
    (keysOf (l.foldl (fun acc2 rv => jsInsert acc2 (joinSR sec rv.1) rv.2) acc)).Nodup := by
  intro l
  induction l with
  | nil =>
      intro acc _ h
      simpa using h
  | cons rv rest ih =>
      intro acc sec h
      rw [List.foldl_cons]
      exact ih _ sec (keysOf_nodup_jsInsert acc _ rv.2 h)

theorem ungroupFromSections_keys_nodup (G : Grouped) :
    (keysOf (ungroupFromSections G)).Nodup := by
  suffices hgen : ∀ (G : Grouped) (acc : FlatMap), (keysOf acc).Nodup →
      (keysOf (G.foldl (fun acc sp =>
        sp.2.foldl (fun acc2 rv => jsInsert acc2 (joinSR sp.1 rv.1) rv.2) acc) acc)).Nodup by
    exact hgen G [] (by simp)
  intro G
  induction G with
  | nil =>
      intro acc h
      simpa using h
  | cons sp rest ih =>
      intro acc h
      rw [List.foldl_cons]
      exact ih _ (ungroup_inner_nodup sp.2 acc sp.1 h)

theorem mem_jsInsert : ∀ (m : List (String × α)) (k : String) (v : α) (p : String × α),
    p ∈ jsInsert m k v → p ∈ m ∨ p = (k, v) := by
  intro m
  induction m with
  | nil =>
      intro k v p h
      simp only [jsInsert_nil, List.mem_singleton] at h
      exact Or.inr h
  | cons q rest ih =>
      intro k v p h
      obtain ⟨k', v'⟩ := q
      by_cases hk : k' = k
      · subst hk
        rw [jsInsert, if_pos rfl] at h
        rcases List.mem_cons.mp h with h | h
        · exact Or.inr h
        · exact Or.inl (List.mem_cons_of_mem _ h)
      · rw [jsInsert, if_neg hk] at h
        rcases List.mem_cons.mp h with h | h
        · exact Or.inl (by rw [h]; exact List.mem_cons_self _ _)
        · rcases ih k v p h with h' | h'
          · exact Or.inl (List.mem_cons_of_mem _ h')
          · exact Or.inr h'

theorem groupStep_keys_nodup (acc : Grouped) (kv : String × String)
    (h : (keysOf acc).Nodup) : (keysOf (groupStep acc kv)).Nodup := by
  cases hlu : jsLookup acc (splitFirstDot kv.1).1 with
  | none =>
      rw [groupStep_eq_of_none acc kv hlu]
      exact keysOf_nodup_jsInsert acc _ _ h
  | some sub =>
      rw [groupStep_eq_of_some acc kv sub hlu]
      exact keysOf_nodup_jsInsert acc _ _ h

theorem groupBySection_keys_nodup (F : FlatMap) : (keysOf (groupBySection F)).Nodup := by
  suffices hgen : ∀ (F : FlatMap) (acc : Grouped), (keysOf acc).Nodup →
      (keysOf (F.foldl groupStep acc)).Nodup by
    exact hgen F [] (by simp)
  intro F
  induction F with
  | nil =>
      intro acc h
      simpa using h
  | cons kv rest ih =>
      intro acc h
      rw [List.foldl_cons]
      exact ih _ (groupStep_keys_nodup acc kv h)

theorem groupStep_sub_nodup (acc : Grouped) (kv : String × String)
    (h : ∀ sp ∈ acc, (keysOf sp.2).Nodup) :
    ∀ sp ∈ groupStep acc kv, (keysOf sp.2).Nodup := by
  cases hlu : jsLookup acc (splitFirstDot kv.1).1 with
  | none =>
      rw [groupStep_eq_of_none acc kv hlu]
      intro sp hsp
      rcases mem_jsInsert acc _ _ sp hsp with h' | h'
      · exact h sp h'
      · rw [h']
        simp [keysOf]
  | some sub =>
      rw [groupStep_eq_of_some acc kv sub hlu]
      intro sp hsp
      rcases mem_jsInsert acc _ _ sp hsp with h' | h'
      · exact h sp h'
      · rw [h']
        exact keysOf_nodup_jsInsert sub _ _ (h _ (mem_of_jsLookup acc _ sub hlu))

theorem groupBySection_sub_nodup (F : FlatMap) :
    ∀ sp ∈ groupBySection F, (keysOf sp.2).Nodup := by
  suffices hgen : ∀ (F : FlatMap) (acc : Grouped), (∀ sp ∈ acc, (keysOf sp.2).Nodup) →
      ∀ sp ∈ F.foldl groupStep acc, (keysOf sp.2).Nodup by
    exact hgen F [] (by simp)
  intro F
  induction F with
  | nil =>
      intro acc h
      simpa using h
  | cons kv rest ih =>
      intro acc h
      rw [List.foldl_cons]
      exact ih _ (groupStep_sub_nodup acc kv h)

theorem filterInner_eq : ∀ (sub : FlatMap) (sec : String) (allowed : List String) (acc : FlatMap),
    (keysOf sub).Nodup → (∀ rv ∈ sub, rv.1 ∉ keysOf acc) →
    sub.foldl (fun facc rv =>
        if allowed.contains (joinSR sec rv.1) then jsInsert facc rv.1 rv.2 else facc) acc
      = acc ++ sub.filter (fun rv => allowed.contains (joinSR sec rv.1)) := by
  intro sub
  induction sub with
  | nil =>
      intro sec allowed acc _ _
      simp
  | cons rv rest ih =>
      intro sec allowed acc hnd hf
      obtain ⟨r, w⟩ := rv
      simp only [keysOf_cons, List.nodup_cons] at hnd
      rw [List.foldl_cons]
      by_cases hc : allowed.contains (joinSR sec r) = true
      · rw [if_pos hc, jsInsert_of_not_mem acc r w (hf (r, w) (by simp))]
        rw [ih sec allowed _ hnd.2 ?_]
        · simp only [List.filter_cons, List.append_assoc, List.singleton_append]
          rw [if_pos hc]
        · intro rv' hrv'
          simp only [keysOf_append, List.mem_append, keysOf_cons, keysOf_nil,
            List.mem_singleton]
          push_neg
          refine ⟨hf rv' (by simp [hrv']), ?_⟩
          intro he
          exact hnd.1 (he ▸ List.mem_map_of_mem Prod.fst hrv')
      · rw [if_neg hc, ih sec allowed acc hnd.2 (fun rv' hrv' => hf rv' (by simp [hrv']))]
        simp only [List.filter_cons]
        rw [if_neg hc]

theorem filterGrouped_fold_eq : ∀ (g : Grouped) (allowed : List String) (acc : Grouped),
    (keysOf g).Nodup → (∀ sp ∈ g, (keysOf sp.2).Nodup) → (∀ sp ∈ g, sp.1 ∉ keysOf acc) →
    g.foldl (fun acc sp =>
        let fs := sp.2.foldl (fun facc rv =>
          if allowed.contains (joinSR sp.1 rv.1) then jsInsert facc rv.1 rv.2 else facc) []
        if (keysOf fs).length > 0 then jsInsert acc sp.1 fs else acc) acc
      = acc ++ filterGroupedSpec allowed g := by
  intro g
  induction g with
  | nil =>
      intro allowed acc _ _ _
      simp [filterGroupedSpec]
  | cons sp g ih =>
      intro allowed acc hnd hsub hf
      simp only [keysOf_cons, List.nodup_cons] at hnd
      have hfs : sp.2.foldl (fun facc rv =>
          if allowed.contains (joinSR sp.1 rv.1) then jsInsert facc rv.1 rv.2 else facc) []
          = sp.2.filter (fun rv => allowed.contains (joinSR sp.1 rv.1)) := by
        simpa using filterInner_eq sp.2 sp.1 allowed [] (hsub sp (by simp)) (by simp)
      rw [List.foldl_cons]
      simp only [hfs, filterGroupedSpec]
      by_cases hlen : (keysOf (sp.2.filter
          (fun rv => allowed.contains (joinSR sp.1 rv.1)))).length > 0
      · rw [if_pos hlen, if_pos hlen]
        rw [jsInsert_of_not_mem acc sp.1 _ (hf sp (by simp))]
        rw [ih allowed _ hnd.2 (fun sp' hsp' => hsub sp' (by simp [hsp'])) ?_]
        · simp
        · intro sp' hsp'
          simp only [keysOf_append, List.mem_append, keysOf_cons, keysOf_nil,
            List.mem_singleton]
          push_neg
          refine ⟨hf sp' (by simp [hsp']), ?_⟩
          intro he
          exact hnd.1 (he ▸ List.mem_map_of_mem Prod.fst hsp')
      · rw [if_neg hlen, if_neg hlen]
        exact ih allowed acc hnd.2 (fun sp' hsp' => hsub sp' (by simp [hsp']))
          (fun sp' hsp' => hf sp' (by simp [hsp']))

theorem filterGroupedByKeys_eq (g : Grouped) (allowed : List String)
    (hnd : (keysOf g).Nodup) (hsub : ∀ sp ∈ g, (keysOf sp.2).Nodup) :
    filterGroupedByKeys g allowed = filterGroupedSpec allowed g := by
  have h := filterGrouped_fold_eq g allowed [] hnd hsub (by simp)
  rw [List.nil_append] at h
  exact h

theorem filterGroupedSpec_sound : ∀ (g : Grouped) (allowed : List String)
    (sp : String × FlatMap), sp ∈ filterGroupedSpec allowed g →
    sp.2 ≠ [] ∧ ∃ sub, (sp.1, sub) ∈ g ∧
      sp.2 = sub.filter (fun rv => allowed.contains (joinSR sp.1 rv.1)) := by
  intro g
  induction g with
  | nil =>
      intro allowed sp h
      simp [filterGroupedSpec] at h
  | cons q g ih =>
      intro allowed sp h
      simp only [filterGroupedSpec] at h
      by_cases hlen : (keysOf (q.2.filter
          (fun rv => allowed.contains (joinSR q.1 rv.1)))).length > 0
      · rw [if_pos hlen] at h
        rcases List.mem_cons.mp h with h | h
        · subst h
          refine ⟨?_, q.2, by simp, rfl⟩
          intro he
          have he' : List.filter (fun rv => allowed.contains (joinSR q.1 rv.1)) q.2 = [] := he
          rw [he'] at hlen
          simp [keysOf] at hlen
        · obtain ⟨hne, sub, hmem, heq⟩ := ih allowed sp h
          exact ⟨hne, sub, List.mem_cons_of_mem _ hmem, heq⟩
      · rw [if_neg hlen] at h
        obtain ⟨hne, sub, hmem, heq⟩ := ih allowed sp h
        exact ⟨hne, sub, List.mem_cons_of_mem _ hmem, heq⟩

theorem filterGroupedSpec_complete : ∀ (g : Grouped) (allowed : List String)
    (sec : String) (sub : FlatMap) (rv : String × String),
    (sec, sub) ∈ g → rv ∈ sub → allowed.contains (joinSR sec rv.1) = true →
    ∃ fs, (sec, fs) ∈ filterGroupedSpec allowed g ∧ rv ∈ fs := by
  intro g
  induction g with
  | nil =>
      intro allowed sec sub rv h _ _
      cases h
  | cons q g ih =>
      intro allowed sec sub rv hmem hrv hc
      simp only [filterGroupedSpec]
      rcases List.mem_cons.mp hmem with h | h
      · have hq2 : q.2 = sub := by rw [← h]
        have hq1 : q.1 = sec := by rw [← h]
        subst hq2
        subst hq1
        have hrvf : rv ∈ q.2.filter (fun rv => allowed.contains (joinSR q.1 rv.1)) :=
          List.mem_filter.mpr ⟨hrv, hc⟩
        have hlen : (keysOf (q.2.filter
            (fun rv => allowed.contains (joinSR q.1 rv.1)))).length > 0 := by
          simp only [keysOf, List.length_map]
          exact List.length_pos.mpr (fun he => by rw [he] at hrvf; cases hrvf)
        rw [if_pos hlen]
        exact ⟨_, by simp, hrvf⟩
      · obtain ⟨fs, hfs, hrvfs⟩ := ih allowed sec sub rv h hrv hc
        by_cases hlen : (keysOf (q.2.filter
            (fun rv => allowed.contains (joinSR q.1 rv.1)))).length > 0
        · rw [if_pos hlen]
          exact ⟨fs, List.mem_cons_of_mem _ hfs, hrvfs⟩
        · rw [if_neg hlen]
          exact ⟨fs, hfs, hrvfs⟩

theorem translateSections_fold_ok : ∀ (gs : Grouped) (oracle : String → FlatMap → FlatMap)
    (acc : Grouped),
    (∀ sp ∈ gs, sortKeys (keysOf sp.2) = sortKeys (keysOf (oracle sp.1 sp.2))) →
    List.foldlM (fun acc sp => do
        let translated ← translateBatch sp.2 (oracle sp.1 sp.2)
        Except.ok (jsInsert acc sp.1 translated)) acc gs
      = .ok (gs.foldl (fun acc sp => jsInsert acc sp.1 (oracle sp.1 sp.2)) acc) := by
  intro gs
  induction gs with
  | nil =>
      intro oracle acc _
      rfl
  | cons sp gs ih =>
      intro oracle acc hok
      rw [List.foldlM_cons,
        translateBatch_no_placeholder_validation sp.2 (oracle sp.1 sp.2) (hok sp (by simp))]
      show List.foldlM _ (jsInsert acc sp.1 (oracle sp.1 sp.2)) gs = _
      rw [ih oracle _ (fun sp' hsp' => hok sp' (by simp [hsp']))]
      rw [List.foldl_cons]

theorem translateSections_ok (gs : Grouped) (oracle : String → FlatMap → FlatMap)
    (hok : ∀ sp ∈ gs, sortKeys (keysOf sp.2) = sortKeys (keysOf (oracle sp.1 sp.2))) :
    translateSections oracle gs
      = .ok (gs.foldl (fun acc sp => jsInsert acc sp.1 (oracle sp.1 sp.2)) []) :=
  translateSections_fold_ok gs oracle [] hok

theorem jsInsert_fold_map : ∀ (gs : Grouped) (acc : Grouped)
    (f : String × FlatMap → FlatMap),
    (keysOf gs).Nodup → (∀ sp ∈ gs, sp.1 ∉ keysOf acc) →
    gs.foldl (fun acc sp => jsInsert acc sp.1 (f sp)) acc
      = acc ++ gs.map (fun sp => (sp.1, f sp)) := by
  intro gs
  induction gs with
  | nil =>
      intro acc f _ _
      simp
  | cons sp gs ih =>
      intro acc f hnd hf
      simp only [keysOf_cons, List.nodup_cons] at hnd
      rw [List.foldl_cons, jsInsert_of_not_mem acc sp.1 _ (hf sp (by simp))]
      rw [ih _ f hnd.2 ?_]
      · simp
      · intro sp' hsp'
        simp only [keysOf_append, List.mem_append, keysOf_cons, keysOf_nil,
          List.mem_singleton]
        push_neg
        refine ⟨hf sp' (by simp [hsp']), ?_⟩
        intro he
        exact hnd.1 (he ▸ List.mem_map_of_mem Prod.fst hsp')

theorem mem_keys_jsInsert (m : List (String × α)) (kk k : String) (v : α)
    (h : k ∈ keysOf (jsInsert m kk v)) : k ∈ keysOf m ∨ k = kk := by
  rw [keysOf_jsInsert] at h
  by_cases hm : kk ∈ keysOf m
  · rw [if_pos hm] at h
    exact Or.inl h
  · rw [if_neg hm] at h
    rcases List.mem_append.mp h with h | h
    · exact Or.inl h
    · exact Or.inr (by simpa using h)

theorem mem_keys_ungroup_inner : ∀ (l : FlatMap) (acc : FlatMap) (sec k : String),
    k ∈ keysOf (l.foldl (fun acc2 rv => jsInsert acc2 (joinSR sec rv.1) rv.2) acc) →
    k ∈ keysOf acc ∨ ∃ rv ∈ l, k = joinSR sec rv.1 := by
  intro l
  induction l with
  | nil =>
      intro acc sec k h
      exact Or.inl h
  | cons rv rest ih =>
      intro acc sec k h
      rw [List.foldl_cons] at h
      rcases ih _ sec k h with h' | h'
      · rcases mem_keys_jsInsert acc _ k rv.2 h' with h'' | h''
        · exact Or.inl h''
        · exact Or.inr ⟨rv, by simp, h''⟩
      · obtain ⟨rv', hrv', he⟩ := h'
        exact Or.inr ⟨rv', by simp [hrv'], he⟩

theorem mem_keys_ungroup : ∀ (G : Grouped) (k : String),
    k ∈ keysOf (ungroupFromSections G) → ∃ sp ∈ G, ∃ rv ∈ sp.2, k = joinSR sp.1 rv.1 := by
  suffices hgen : ∀ (G : Grouped) (acc : FlatMap) (k : String),
      k ∈ keysOf (G.foldl (fun acc sp =>
        sp.2.foldl (fun acc2 rv => jsInsert acc2 (joinSR sp.1 rv.1) rv.2) acc) acc) →
      k ∈ keysOf acc ∨ ∃ sp ∈ G, ∃ rv ∈ sp.2, k = joinSR sp.1 rv.1 by
    intro G k h
    rcases hgen G [] k h with h' | h'
    · simp at h'
    · exact h'
  intro G
  induction G with
  | nil =>
      intro acc k h
      exact Or.inl h
  | cons sp G ih =>
      intro acc k h
      rw [List.foldl_cons] at h
      rcases ih _ k h with h' | h'
      · rcases mem_keys_ungroup_inner sp.2 acc sp.1 k h' with h'' | h''
        · exact Or.inl h''
        · obtain ⟨rv, hrv, he⟩ := h''
          exact Or.inr ⟨sp, by simp, rv, hrv, he⟩
      · obtain ⟨sp', hsp', rv, hrv, he⟩ := h'
        exact Or.inr ⟨sp', by simp [hsp'], rv, hrv, he⟩

theorem mem_keysOf_iff (m : List (String × α)) (k : String) :
    k ∈ keysOf m ↔ ∃ v, (k, v) ∈ m := by
  constructor
  · intro h
    obtain ⟨p, hp, he⟩ := List.mem_map.mp h
    exact ⟨p.2, by rwa [show (k, p.2) = p from by rw [← he]]⟩
  · rintro ⟨v, hv⟩
    exact List.mem_map.mpr ⟨(k, v), hv, rfl⟩

theorem filterGroupedSpec_keys_mem : ∀ (g : Grouped) (allowed : List String) (k : String),
    k ∈ keysOf (filterGroupedSpec allowed g) → k ∈ keysOf g := by
  intro g
  induction g with
  | nil =>
      intro allowed k h
      simp [filterGroupedSpec] at h
  | cons q g ih =>
      intro allowed k h
      simp only [filterGroupedSpec] at h
      by_cases hlen : (keysOf (q.2.filter
          (fun rv => allowed.contains (joinSR q.1 rv.1)))).length > 0
      · rw [if_pos hlen] at h
        simp only [keysOf_cons, List.mem_cons] at h ⊢
        rcases h with h | h
        · exact Or.inl h
        · exact Or.inr (ih allowed k h)
      · rw [if_neg hlen] at h
        simp only [keysOf_cons, List.mem_cons]
        exact Or.inr (ih allowed k h)

theorem filterGroupedSpec_keys_nodup : ∀ (g : Grouped) (allowed : List String),
    (keysOf g).Nodup → (keysOf (filterGroupedSpec allowed g)).Nodup := by
  intro g
  induction g with
  | nil =>
      intro allowed _
      simp [filterGroupedSpec, keysOf]
  | cons q g ih =>
      intro allowed hnd
      simp only [keysOf_cons, List.nodup_cons] at hnd
      simp only [filterGroupedSpec]
      by_cases hlen : (keysOf (q.2.filter
          (fun rv => allowed.contains (joinSR q.1 rv.1)))).length > 0
      · rw [if_pos hlen]
        simp only [keysOf_cons, List.nodup_cons]
        exact ⟨fun h => hnd.1 (filterGroupedSpec_keys_mem g allowed q.1 h), ih allowed hnd.2⟩
      · rw [if_neg hlen]
        exact ih allowed hnd.2

/-- C7: in missing-only mode with a nonempty missing set M, the grouped
section map is restricted to exactly the bindings whose reconstructed
full key lies in M (sections left empty are dropped), only those are
translated, and the merged flat mapping is the existing mapping overridden
by the translated one: translated keys (all in M) take precedence, and
every previously existing key outside M keeps its value. -/
theorem processLanguage_incremental_merge (flattened : FlatMap) (t : Obj)
    (oracle : String → FlatMap → FlatMap)
    (M : List String) (filtered tg : Grouped) (tf merged : FlatMap)
    (hM : M = missingKeysOf flattened (flatten t))
    (hMne : M ≠ [])
    (hfil : filtered = filterGroupedByKeys (groupBySection flattened) M)
    (htg : tg = filtered.map (fun sp => (sp.1, oracle sp.1 sp.2)))
    (htf : tf = ungroupFromSections tg)
    (hmerged : merged = jsAssign (jsAssign [] (flatten t)) tf)
    (horacle : ∀ sp ∈ filtered, sortKeys (keysOf sp.2) = sortKeys (keysOf (oracle sp.1 sp.2))) :
    (∀ sp ∈ filtered, sp.2 ≠ [] ∧ ∃ sub, (sp.1, sub) ∈ groupBySection flattened ∧
        sp.2 = sub.filter (fun rv => M.contains (joinSR sp.1 rv.1)))
    ∧ (∀ (sec : String) (sub : FlatMap) (rv : String × String),
        (sec, sub) ∈ groupBySection flattened → rv ∈ sub →
        M.contains (joinSR sec rv.1) = true → ∃ fs, (sec, fs) ∈ filtered ∧ rv ∈ fs)
    ∧ processLanguage true flattened (some t) oracle =
        (match unflatten merged with
         | .error _ => .error .structuralWrite
         | .ok w => .ok ⟨filtered.length, some w⟩)
    ∧ (∀ k ∈ keysOf tf, k ∈ M)
    ∧ (∀ (k v : String), jsLookup (flatten t) k = some v → k ∉ M →
        jsLookup merged k = some v)
    ∧ (∀ k ∈ keysOf tf, jsLookup merged k = jsLookup tf k) := by
  have hgnd := groupBySection_keys_nodup flattened
  have hgsub := groupBySection_sub_nodup flattened
  have hfe : filtered = filterGroupedSpec M (groupBySection flattened) := by
    rw [hfil, filterGroupedByKeys_eq _ _ hgnd hgsub]
  have hfilnd : (keysOf filtered).Nodup := by
    rw [hfe]
    exact filterGroupedSpec_keys_nodup _ M hgnd
  have hsound := fun sp hsp => filterGroupedSpec_sound (groupBySection flattened) M sp
    (hfe ▸ hsp)
  have htfnd : (keysOf tf).Nodup := by
    rw [htf]
    exact ungroupFromSections_keys_nodup tg
  have hkeystf : ∀ k ∈ keysOf tf, k ∈ M := by
    intro k hk
    rw [htf] at hk
    obtain ⟨sp, hsp, rv, hrv, he⟩ := mem_keys_ungroup tg k hk
    rw [htg] at hsp
    obtain ⟨sq, hsq, hspe⟩ := List.mem_map.mp hsp
    have hq1 : sp.1 = sq.1 := by rw [← hspe]
    have hq2 : sp.2 = oracle sq.1 sq.2 := by rw [← hspe]
    have hperm : (keysOf sq.2).Perm (keysOf (oracle sq.1 sq.2)) :=
      (sortKeys_eq_iff _ _).mp (horacle sq hsq)
    have hrvk : rv.1 ∈ keysOf sq.2 := by
      refine hperm.symm.mem_iff.mp ?_
      rw [← hq2]
      exact List.mem_map_of_mem Prod.fst hrv
    obtain ⟨w, hw⟩ := (mem_keysOf_iff sq.2 rv.1).mp hrvk
    obtain ⟨-, sub, -, hform⟩ := hsound sq hsq
    rw [hform] at hw
    have hc := (List.mem_filter.mp hw).2
    rw [he, hq1]
    exact (contains_true_iff _ _).mp hc
  refine ⟨?_, ?_, ?_, hkeystf, ?_, ?_⟩
  · exact hsound
  · intro sec sub rv hmem hrv hc
    obtain ⟨fs, hfs, hrvfs⟩ := filterGroupedSpec_complete (groupBySection flattened) M
      sec sub rv hmem hrv hc
    exact ⟨fs, hfe ▸ hfs, hrvfs⟩
  · have hsec : sectionsFor true flattened (some t) = some (flatten t, filtered) := by
      simp only [sectionsFor]
      rw [if_neg (hM ▸ hMne), ← hM, ← hfil]
    have hts : translateSections oracle filtered = .ok tg := by
      rw [translateSections_ok filtered oracle horacle,
        jsInsert_fold_map filtered [] (fun sp => oracle sp.1 sp.2) hfilnd (by simp),
        List.nil_append, ← htg]
    simp only [processLanguage, hsec, hts]
    rw [hmerged, htf]
    rfl
  · intro k v hv hkM
    have hknotf : k ∉ keysOf tf := fun hk => hkM (hkeystf k hk)
    rw [hmerged, jsLookup_jsAssign_of_not_mem tf _ k hknotf,
      jsAssign_empty_eq (flatten t) (flatten_keys_nodup t), hv]
  · intro k hk
    rw [hmerged]
    exact jsLookup_jsAssign_of_mem tf _ k htfnd hk

/-- Witness for C7: two source keys, one already translated in the
existing file, one missing; only the missing one's section is translated
and the existing value survives the merge. -/
theorem processLanguage_incremental_merge_witness :
    missingKeysOf [("a", "x"), ("c.d", "w")]
        (flatten [("a", JTree.leaf "y"), ("b", JTree.leaf "z")]) ≠ []
    ∧ jsLookup (jsAssign (jsAssign []
        (flatten [("a", JTree.leaf "y"), ("b", JTree.leaf "z")])) [("c.d", "T")]) "a"
      = some "y" :=
  ⟨by decide,
    (processLanguage_incremental_merge [("a", "x"), ("c.d", "w")]
      [("a", JTree.leaf "y"), ("b", JTree.leaf "z")]
      (fun sec st => if sec = "c" then [("d", "T")] else st)
      ["c.d"] [("c", [("d", "w")])] [("c", [("d", "T")])] [("c.d", "T")]
      (jsAssign (jsAssign [] (flatten [("a", JTree.leaf "y"), ("b", JTree.leaf "z")]))
        [("c.d", "T")])
      (by decide) (by decide) (by decide) (by decide) (by decide) rfl
      (by decide)).2.2.2.2.1 "a" "y" (by decide) (by decide)⟩

/-! ## C3 and C9 — joining and splitting whole paths -/

theorem mk_data (s : String) : String.mk s.data = s := by
  cases s
  rfl

theorem data_append (a b : String) : (a ++ b).data = a.data ++ b.data := by
  cases a
  cases b
  rfl

theorem str_append_assoc (a b c : String) : (a ++ b) ++ c = a ++ (b ++ c) := by
  cases a
  cases b
  cases c
  exact congrArg String.mk (List.append_assoc _ _ _)

theorem map_mk_data : ∀ l : List String, (l.map String.data).map String.mk = l := by
  intro l
  induction l with
  | nil => rfl
  | cons a l ih => simp [ih, mk_data]

theorem ne_empty_of_data_ne_nil (a : String) (h : a.data ≠ []) : a ≠ "" := by
  intro he
  rw [he] at h
  exact h rfl

theorem dotted_ne_empty (p a : String) : p ++ "." ++ a ≠ "" := by
  apply ne_empty_of_data_ne_nil
  rw [data_append, data_append]
  simp

theorem joinSegs_cons₂ (a b : String) (t : List String) :
    joinSegs (a :: b :: t) = a ++ "." ++ joinSegs (b :: t) := rfl

theorem data_joinSegs_cons₂ (a b : String) (t : List String) :
    (joinSegs (a :: b :: t)).data = a.data ++ '.' :: (joinSegs (b :: t)).data := by
  rw [joinSegs_cons₂, data_append, data_append]
  simp

theorem splitDots_joinSegs : ∀ (segs : List String), segs ≠ [] →
    (∀ s ∈ segs, ∀ c ∈ s.data, c ≠ '.') →
    splitDots (joinSegs segs).data = segs.map String.data := by
  intro segs
  induction segs with
  | nil =>
      intro h _
      exact absurd rfl h
  | cons a rest ih =>
      intro _ hdf
      cases rest with
      | nil =>
          show splitDots a.data = [a.data]
          exact splitDots_no_dot a.data (hdf a (by simp))
      | cons b t =>
          rw [data_joinSegs_cons₂, splitDots_append_dot a.data _ (hdf a (by simp))]
          rw [ih (by simp) (fun s hs => hdf s (by simp [hs]))]
          rfl

theorem segsOf_joinSegs (segs : List String) (hne : segs ≠ [])
    (hdf : ∀ s ∈ segs, ∀ c ∈ s.data, c ≠ '.') : segsOf (joinSegs segs) = segs := by
  rw [segsOf, splitDots_joinSegs segs hne hdf, map_mk_data]

theorem joinSegs_inj (p q : List String) (hpne : p ≠ []) (hqne : q ≠ [])
    (hpdf : ∀ s ∈ p, ∀ c ∈ s.data, c ≠ '.') (hqdf : ∀ s ∈ q, ∀ c ∈ s.data, c ≠ '.')
    (h : joinSegs p = joinSegs q) : p = q := by
  have := congrArg segsOf h
  rwa [segsOf_joinSegs p hpne hpdf, segsOf_joinSegs q hqne hqdf] at this

theorem str_eq_of_data (a b : String) (h : a.data = b.data) : a = b := by
  cases a
  cases b
  exact congrArg String.mk h

theorem joinSegs_segsOf : ∀ cs : List Char,
    joinSegs ((splitDots cs).map String.mk) = String.mk cs := by
  intro cs
  induction cs with
  | nil => rfl
  | cons c cs ih =>
      by_cases hc : c = '.'
      · subst hc
        rw [splitDots, if_pos rfl, List.map_cons]
        cases hs : splitDots cs with
        | nil => exact absurd hs (splitDots_ne_nil cs)
        | cons h t =>
            rw [hs] at ih
            simp only [List.map_cons] at ih ⊢
            rw [joinSegs_cons₂, ih]
            apply str_eq_of_data
            rw [data_append, data_append]
            rfl
      · rw [splitDots, if_neg hc]
        cases hs : splitDots cs with
        | nil => exact absurd hs (splitDots_ne_nil cs)
        | cons h t =>
            rw [hs] at ih
            simp only [List.map_cons] at ih ⊢
            cases t with
            | nil =>
                have hh : h = cs := by
                  have := congrArg String.data ih
                  simpa using this
                show String.mk (c :: h) = String.mk (c :: cs)
                rw [hh]
            | cons b t' =>
                simp only [List.map_cons] at ih ⊢
                rw [joinSegs_cons₂] at ih ⊢
                have hdata := congrArg String.data ih
                rw [data_append, data_append] at hdata
                have hdata' : h ++ '.' :: (joinSegs (String.mk b :: t'.map String.mk)).data
                    = cs := by
                  simpa [show (("." : String)).data = ['.'] from rfl] using hdata
                apply str_eq_of_data
                rw [data_append, data_append]
                show (c :: h) ++ ".".data ++ (joinSegs (String.mk b :: t'.map String.mk)).data
                  = (c :: cs)
                rw [← hdata']
                simp [show (("." : String)).data = ['.'] from rfl]

theorem joinAfter_cons (pfx a : String) (rest : List String) :
    joinAfter pfx (a :: rest) = joinAfter (joinKey pfx a) rest := rfl

theorem joinAfter_of_ne : ∀ (segs : List String) (pfx : String), pfx ≠ "" →
    joinAfter pfx segs = joinSegs (pfx :: segs) := by
  intro segs
  induction segs with
  | nil =>
      intro pfx _
      rfl
  | cons a rest ih =>
      intro pfx hpfx
      rw [joinAfter_cons, joinKey, if_neg hpfx, ih _ (dotted_ne_empty pfx a)]
      cases rest with
      | nil => rfl
      | cons b t =>
          rw [joinSegs_cons₂, joinSegs_cons₂]
          rw [show joinSegs (a :: b :: t) = a ++ "." ++ joinSegs (b :: t) from rfl]
          rw [← str_append_assoc, ← str_append_assoc]

theorem joinAfter_empty (a : String) (rest : List String) (ha : a ≠ "") :
    joinAfter "" (a :: rest) = joinSegs (a :: rest) := by
  rw [joinAfter_cons, joinKey, if_pos rfl]
  cases rest with
  | nil => rfl
  | cons b t => rw [joinAfter_of_ne _ a ha]

theorem goodNameB_unpack (s : String) (h : goodNameB s = true) :
    s ≠ "" ∧ ∀ c ∈ s.data, c ≠ '.' := by
  rw [goodNameB, Bool.and_eq_true] at h
  constructor
  · intro he
    subst he
    exact absurd h.1 (by decide)
  · intro c hc he
    have h2 := h.2
    rw [List.all_eq_true] at h2
    have h3 := h2 c hc
    rw [he] at h3
    simp at h3

/-! ## C3 and C9 — monadic fold helpers and path catalogues -/

theorem except_bind_ok (x : β) (f : β → Except ε γ) :
    (Except.ok x >>= f : Except ε γ) = f x := rfl

theorem except_bind_error (e : ε) (f : β → Except ε γ) :
    ((Except.error e : Except ε β) >>= f : Except ε γ) = .error e := rfl

theorem except_map_ok (f : β → γ) (x : β) :
    Except.map f (Except.ok x : Except ε β) = .ok (f x) := rfl

theorem except_map_error (f : β → γ) (e : ε) :
    Except.map f (Except.error e : Except ε β) = .error e := rfl

theorem foldlM_append_e : ∀ (l₁ l₂ : List α) (f : β → α → Except ε β) (b : β),
    (l₁ ++ l₂).foldlM f b = (l₁.foldlM f b) >>= (fun b2 => l₂.foldlM f b2) := by
  intro l₁
  induction l₁ with
  | nil =>
      intro l₂ f b
      rfl
  | cons a l ih =>
      intro l₂ f b
      rw [List.cons_append, List.foldlM_cons, List.foldlM_cons]
      cases f b a with
      | error e => rfl
      | ok b1 =>
          rw [except_bind_ok, except_bind_ok]
          exact ih l₂ f b1

theorem foldlM_map_e : ∀ (l : List α) (g : α → γ) (f : β → γ → Except ε β) (b : β),
    (l.map g).foldlM f b = l.foldlM (fun b a => f b (g a)) b := by
  intro l
  induction l with
  | nil =>
      intro g f b
      rfl
  | cons a l ih =>
      intro g f b
      rw [List.map_cons, List.foldlM_cons, List.foldlM_cons]
      cases f b (g a) with
      | error e => rfl
      | ok b1 =>
          rw [except_bind_ok, except_bind_ok]
          exact ih g f b1

theorem foldlM_congr_e : ∀ (l : List α) (f g : β → α → Except ε β) (b : β),
    (∀ a ∈ l, ∀ x, f x a = g x a) → l.foldlM f b = l.foldlM g b := by
  intro l
  induction l with
  | nil =>
      intro f g b _
      rfl
  | cons a l ih =>
      intro f g b h
      rw [List.foldlM_cons, List.foldlM_cons, h a (by simp) b]
      cases g b a with
      | error e => rfl
      | ok b1 =>
          rw [except_bind_ok, except_bind_ok]
          exact ih f g b1 (fun a' ha' => h a' (by simp [ha']))

theorem frontLast_fst : ∀ (a : String) (as : List String),
    (frontLast a as).1 = (a :: as).dropLast := by
  intro a as
  induction as generalizing a with
  | nil => rfl
  | cons b bs ih =>
      show a :: (frontLast b bs).1 = (a :: b :: bs).dropLast
      rw [ih b]
      rfl

theorem frontLast_snd : ∀ (as : List String) (a : String) (h : (a :: as : List String) ≠ []),
    (frontLast a as).2 = (a :: as).getLast h := by
  intro as
  induction as with
  | nil =>
      intro a h
      rfl
  | cons b bs ih =>
      intro a h
      show (frontLast b bs).2 = _
      rw [ih b (by simp)]
      exact (List.getLast_cons (by simp)).symm

theorem frontLast_append : ∀ (as : List String) (a : String),
    (frontLast a as).1 ++ [(frontLast a as).2] = a :: as := by
  intro as
  induction as with
  | nil =>
      intro a
      rfl
  | cons b bs ih =>
      intro a
      show (a :: (frontLast b bs).1) ++ [(frontLast b bs).2] = a :: b :: bs
      rw [List.cons_append, ih b]

theorem pathEntries_append (a b : Obj) :
    pathEntries (a ++ b) = pathEntries a ++ pathEntries b := by
  induction a with
  | nil => rfl
  | cons p rest ih =>
      obtain ⟨k, t⟩ := p
      show pathEntriesOf k t ++ pathEntries (rest ++ b) = _
      rw [ih, ← List.append_assoc]
      rfl

theorem pathEntries_nestObj (ps : List String) (last v : String) :
    pathEntries (nestObj ps [(last, .leaf v)]) = [(ps ++ [last], v)] := by
  induction ps with
  | nil => rfl
  | cons p ps ih =>
      show pathEntriesOf p (.node (nestObj ps [(last, .leaf v)])) ++ [] = _
      rw [List.append_nil]
      show (pathEntries (nestObj ps [(last, .leaf v)])).map _ = _
      rw [ih, List.map_cons, List.map_nil]
      rfl

theorem pathEntries_mem_of_mem_leaf : ∀ (W : Obj) (k s : String),
    (k, JTree.leaf s) ∈ W → ([k], s) ∈ pathEntries W := by
  intro W
  induction W with
  | nil =>
      intro k s h
      cases h
  | cons p rest ih =>
      intro k s h
      obtain ⟨k', t'⟩ := p
      show ([k], s) ∈ pathEntriesOf k' t' ++ pathEntries rest
      rcases List.mem_cons.mp h with he | hm
      · injection he with h1 h2
        subst h1
        subst h2
        simp [pathEntriesOf]
      · exact List.mem_append.mpr (Or.inr (ih k s hm))

theorem pathEntries_mem_of_mem_node : ∀ (W : Obj) (k : String) (ch : Obj)
    (pv : List String × String),
    (k, JTree.node ch) ∈ W → pv ∈ pathEntries ch → (k :: pv.1, pv.2) ∈ pathEntries W := by
  intro W
  induction W with
  | nil =>
      intro k ch pv h _
      cases h
  | cons p rest ih =>
      intro k ch pv h hpv
      obtain ⟨k', t'⟩ := p
      show (k :: pv.1, pv.2) ∈ pathEntriesOf k' t' ++ pathEntries rest
      rcases List.mem_cons.mp h with he | hm
      · injection he with h1 h2
        subst h1
        subst h2
        refine List.mem_append.mpr (Or.inl ?_)
        show (k :: pv.1, pv.2) ∈ (pathEntries ch).map _
        exact List.mem_map.mpr ⟨pv, hpv, rfl⟩
      · exact List.mem_append.mpr (Or.inr (ih k ch pv hm hpv))

theorem alongB_refl : ∀ p : List String, alongB p p = true := by
  intro p
  induction p with
  | nil => rfl
  | cons a as ih => simp [alongB, ih]

theorem alongB_cons_same (a : String) (as bs : List String) :
    alongB (a :: as) (a :: bs) = alongB as bs := by
  simp [alongB]

theorem alongB_cons_ne (a b : String) (as bs : List String) (h : a ≠ b) :
    alongB (a :: as) (b :: bs) = false := by
  simp [alongB, h]

theorem alongB_nil (q : List String) : alongB [] q = true := rfl

theorem wfObjB_cons (k : String) (t : JTree) (rest : Obj) :
    wfObjB ((k, t) :: rest) = true ↔
      k ∉ keysOf rest ∧ wfTreeB t = true ∧ wfObjB rest = true := by
  show (!((keysOf rest).contains k) && wfTreeB t && wfObjB rest) = true ↔ _
  rw [Bool.and_eq_true, Bool.and_eq_true, Bool.not_eq_true', contains_false_iff]
  tauto

theorem wfTreeB_node (ch : Obj) :
    wfTreeB (.node ch) = true ↔ ch ≠ [] ∧ wfObjB ch = true := by
  show (!ch.isEmpty && wfObjB ch) = true ↔ _
  rw [Bool.and_eq_true, Bool.not_eq_true']
  cases ch <;> simp [List.isEmpty]

theorem wf_keys_nodup : ∀ (W : Obj), wfObjB W = true → (keysOf W).Nodup := by
  intro W
  induction W with
  | nil =>
      intro _
      simp
  | cons p rest ih =>
      intro h
      obtain ⟨k, t⟩ := p
      obtain ⟨h1, _, h3⟩ := (wfObjB_cons k t rest).mp h
      simp only [keysOf_cons, List.nodup_cons]
      exact ⟨h1, ih h3⟩

theorem wf_mem_tree : ∀ (W : Obj) (k : String) (t : JTree),
    wfObjB W = true → (k, t) ∈ W → wfTreeB t = true := by
  intro W
  induction W with
  | nil =>
      intro k t _ h
      cases h
  | cons p rest ih =>
      intro k t hwf h
      obtain ⟨k', t'⟩ := p
      obtain ⟨_, h2, h3⟩ := (wfObjB_cons k' t' rest).mp hwf
      rcases List.mem_cons.mp h with he | hm
      · injection he with ha hb
        subst hb
        exact h2
      · exact ih k t h3 hm

theorem wf_append : ∀ (W : Obj) (k : String) (t : JTree),
    wfObjB W = true → wfTreeB t = true → k ∉ keysOf W →
    wfObjB (W ++ [(k, t)]) = true := by
  intro W
  induction W with
  | nil =>
      intro k t _ ht _
      exact (wfObjB_cons k t []).mpr ⟨by simp, ht, rfl⟩
  | cons p rest ih =>
      intro k t hwf ht hk
      obtain ⟨k', t'⟩ := p
      obtain ⟨h1, h2, h3⟩ := (wfObjB_cons k' t' rest).mp hwf
      simp only [keysOf_cons, List.mem_cons] at hk
      push_neg at hk
      rw [List.cons_append]
      refine (wfObjB_cons k' t' (rest ++ [(k, t)])).mpr ⟨?_, h2, ih k t h3 ht hk.2⟩
      simp only [keysOf_append, List.mem_append, keysOf_cons, keysOf_nil, List.mem_singleton]
      push_neg
      exact ⟨h1, fun he => hk.1 he.symm⟩

theorem wf_update : ∀ (x : Obj) (k : String) (t t' : JTree) (y : Obj),
    wfObjB (x ++ (k, t) :: y) = true → wfTreeB t' = true →
    wfObjB (x ++ (k, t') :: y) = true := by
  intro x
  induction x with
  | nil =>
      intro k t t' y hwf ht'
      obtain ⟨h1, _, h3⟩ := (wfObjB_cons k t y).mp hwf
      exact (wfObjB_cons k t' y).mpr ⟨h1, ht', h3⟩
  | cons p rest ih =>
      intro k t t' y hwf ht'
      obtain ⟨k', t₀⟩ := p
      rw [List.cons_append] at hwf ⊢
      obtain ⟨h1, h2, h3⟩ := (wfObjB_cons k' t₀ (rest ++ (k, t) :: y)).mp hwf
      refine (wfObjB_cons k' t₀ (rest ++ (k, t') :: y)).mpr ⟨?_, h2, ih k t t' y h3 ht'⟩
      simpa using h1

mutual

theorem goodObj_wf : ∀ (W : Obj), goodObjB W = true → wfObjB W = true
  | [], _ => rfl
  | (k, t) :: rest, hg => by
      have hg' : (goodNameB k && !((keysOf rest).contains k) && goodTreeB t
          && goodObjB rest) = true := hg
      rw [Bool.and_eq_true, Bool.and_eq_true, Bool.and_eq_true] at hg'
      refine (wfObjB_cons k t rest).mpr ⟨?_, goodTree_wf t hg'.1.2, goodObj_wf rest hg'.2⟩
      have := hg'.1.1.2
      rwa [Bool.not_eq_true', contains_false_iff] at this

theorem goodTree_wf : ∀ (t : JTree), goodTreeB t = true → wfTreeB t = true
  | .leaf _, _ => rfl
  | .node ch, hg => by
      have hg' : (!ch.isEmpty && goodObjB ch) = true := hg
      rw [Bool.and_eq_true] at hg'
      refine (wfTreeB_node ch).mpr ⟨?_, goodObj_wf ch hg'.2⟩
      have := hg'.1
      rw [Bool.not_eq_true'] at this
      cases ch
      · simp [List.isEmpty] at this
      · simp

end

theorem goodObjB_cons (k : String) (t : JTree) (rest : Obj) :
    goodObjB ((k, t) :: rest) = true ↔
      goodNameB k = true ∧ k ∉ keysOf rest ∧ goodTreeB t = true ∧ goodObjB rest = true := by
  show (goodNameB k && !((keysOf rest).contains k) && goodTreeB t && goodObjB rest) = true ↔ _
  rw [Bool.and_eq_true, Bool.and_eq_true, Bool.and_eq_true, Bool.not_eq_true',
    contains_false_iff]
  tauto

theorem goodTreeB_node (ch : Obj) :
    goodTreeB (.node ch) = true ↔ ch ≠ [] ∧ goodObjB ch = true := by
  show (!ch.isEmpty && goodObjB ch) = true ↔ _
  rw [Bool.and_eq_true, Bool.not_eq_true']
  cases ch <;> simp [List.isEmpty]

mutual

theorem pathEntries_ne_nil : ∀ (ch : Obj), wfObjB ch = true → ch ≠ [] →
    pathEntries ch ≠ []
  | [], _, hne => absurd rfl hne
  | (k, t) :: rest, hwf, _ => by
      obtain ⟨_, h2, _⟩ := (wfObjB_cons k t rest).mp hwf
      show pathEntriesOf k t ++ pathEntries rest ≠ []
      intro he
      exact pathEntriesOf_ne_nil k t h2 (List.append_eq_nil.mp he).1

theorem pathEntriesOf_ne_nil : ∀ (k : String) (t : JTree), wfTreeB t = true →
    pathEntriesOf k t ≠ []
  | _, .leaf _, _ => by simp [pathEntriesOf]
  | k, .node ch, hwf => by
      obtain ⟨hne, hch⟩ := (wfTreeB_node ch).mp hwf
      show (pathEntries ch).map _ ≠ []
      intro he
      exact pathEntries_ne_nil ch hch hne (List.map_eq_nil_iff.mp he)

end

/-! ## C3 and C9 — the leaf paths of a well-formed tree -/

theorem pathEntriesOf_head (k : String) (t : JTree) (pv : List String × String)
    (h : pv ∈ pathEntriesOf k t) : ∃ q, pv.1 = k :: q := by
  cases t with
  | leaf s =>
      simp only [pathEntriesOf, List.mem_singleton] at h
      exact ⟨[], by rw [h]⟩
  | node ch =>
      obtain ⟨qv, _, he⟩ := List.mem_map.mp h
      exact ⟨qv.1, by rw [← he]⟩

theorem pathEntries_head : ∀ (obj : Obj) (pv : List String × String),
    pv ∈ pathEntries obj → ∃ k q, pv.1 = k :: q ∧ k ∈ keysOf obj := by
  intro obj
  induction obj with
  | nil =>
      intro pv h
      cases h
  | cons p rest ih =>
      intro pv h
      obtain ⟨k, t⟩ := p
      rcases List.mem_append.mp h with h' | h'
      · obtain ⟨q, hq⟩ := pathEntriesOf_head k t pv h'
        exact ⟨k, q, hq, by simp⟩
      · obtain ⟨k', q, hq, hk'⟩ := ih pv h'
        exact ⟨k', q, hq, by simp [hk']⟩

mutual

theorem pathEntries_good : ∀ (obj : Obj), goodObjB obj = true →
    ∀ pv ∈ pathEntries obj, pv.1 ≠ [] ∧ ∀ s ∈ pv.1, goodNameB s = true
  | [], _, pv, hpv => absurd hpv (by simp [pathEntries])
  | (k, t) :: rest, hg, pv, hpv => by
      obtain ⟨hk, _, ht, hrest⟩ := (goodObjB_cons k t rest).mp hg
      rcases List.mem_append.mp hpv with h | h
      · exact pathEntriesOf_good k t hk ht pv h
      · exact pathEntries_good rest hrest pv h

theorem pathEntriesOf_good : ∀ (k : String) (t : JTree), goodNameB k = true →
    goodTreeB t = true →
    ∀ pv ∈ pathEntriesOf k t, pv.1 ≠ [] ∧ ∀ s ∈ pv.1, goodNameB s = true
  | k, .leaf s, hk, _, pv, hpv => by
      simp only [pathEntriesOf, List.mem_singleton] at hpv
      subst hpv
      refine ⟨by simp, ?_⟩
      intro s' hs'
      simp only [List.mem_singleton] at hs'
      rwa [hs']
  | k, .node ch, hk, ht, pv, hpv => by
      obtain ⟨_, hchg⟩ := (goodTreeB_node ch).mp ht
      obtain ⟨qv, hqv, he⟩ := List.mem_map.mp hpv
      obtain ⟨hqne, hqg⟩ := pathEntries_good ch hchg qv hqv
      subst he
      refine ⟨by simp, ?_⟩
      intro s hs
      rcases List.mem_cons.mp hs with h | h
      · rwa [h]
      · exact hqg s h

end

mutual

theorem pathEntries_nonalong : ∀ (obj : Obj), goodObjB obj = true →
    List.Pairwise (fun p q => alongB p q = false ∧ alongB q p = false) (leafPaths obj)
  | [], _ => List.Pairwise.nil
  | (k, t) :: rest, hg => by
      obtain ⟨hk, hknotin, ht, hrest⟩ := (goodObjB_cons k t rest).mp hg
      show List.Pairwise _ ((pathEntriesOf k t ++ pathEntries rest).map Prod.fst)
      rw [List.map_append, List.pairwise_append]
      refine ⟨pathEntriesOf_nonalong k t ht, pathEntries_nonalong rest hrest, ?_⟩
      intro a ha b hb
      obtain ⟨pa, hpa, hea⟩ := List.mem_map.mp ha
      obtain ⟨pb, hpb, heb⟩ := List.mem_map.mp hb
      obtain ⟨qa, hqa⟩ := pathEntriesOf_head k t pa hpa
      obtain ⟨k', qb, hqb, hk'⟩ := pathEntries_head rest pb hpb
      have hne : k ≠ k' := fun he => hknotin (he ▸ hk')
      rw [← hea, ← heb, hqa, hqb]
      exact ⟨alongB_cons_ne k k' qa qb hne, alongB_cons_ne k' k qb qa (Ne.symm hne)⟩

theorem pathEntriesOf_nonalong : ∀ (k : String) (t : JTree), goodTreeB t = true →
    List.Pairwise (fun p q => alongB p q = false ∧ alongB q p = false)
      ((pathEntriesOf k t).map Prod.fst)
  | _, .leaf _, _ => by
      show List.Pairwise _ ([_].map Prod.fst)
      simp
  | k, .node ch, ht => by
      obtain ⟨_, hchg⟩ := (goodTreeB_node ch).mp ht
      have h1 := pathEntries_nonalong ch hchg
      rw [leafPaths, List.pairwise_map] at h1
      show List.Pairwise _ (((pathEntries ch).map (fun pv => (k :: pv.1, pv.2))).map Prod.fst)
      rw [List.map_map, List.pairwise_map]
      refine h1.imp ?_
      intro a b hab
      show alongB (k :: a.1) (k :: b.1) = false ∧ alongB (k :: b.1) (k :: a.1) = false
      rw [alongB_cons_same, alongB_cons_same]
      exact hab

end

theorem joinSegs_ne_empty (a : String) (as : List String) (ha : a ≠ "") :
    joinSegs (a :: as) ≠ "" := by
  cases as with
  | nil => exact ha
  | cons b bs => exact dotted_ne_empty a (joinSegs (b :: bs))

theorem joinAfter_inj (pfx : String) (p q : List String)
    (hp : p ≠ []) (hq : q ≠ [])
    (hpg : ∀ s ∈ p, goodNameB s = true) (hqg : ∀ s ∈ q, goodNameB s = true)
    (h : joinAfter pfx p = joinAfter pfx q) : p = q := by
  have hpdf : ∀ s ∈ p, ∀ c ∈ s.data, c ≠ '.' := fun s hs => (goodNameB_unpack s (hpg s hs)).2
  have hqdf : ∀ s ∈ q, ∀ c ∈ s.data, c ≠ '.' := fun s hs => (goodNameB_unpack s (hqg s hs)).2
  cases p with
  | nil => exact absurd rfl hp
  | cons a as =>
    cases q with
    | nil => exact absurd rfl hq
    | cons b bs =>
      by_cases hpfx : pfx = ""
      · subst hpfx
        rw [joinAfter_empty a as (goodNameB_unpack a (hpg a (by simp))).1,
          joinAfter_empty b bs (goodNameB_unpack b (hqg b (by simp))).1] at h
        exact joinSegs_inj _ _ (by simp) (by simp) hpdf hqdf h
      · rw [joinAfter_of_ne _ pfx hpfx, joinAfter_of_ne _ pfx hpfx] at h
        rw [joinSegs_cons₂, joinSegs_cons₂] at h
        have hd := congrArg String.data h
        rw [data_append, data_append, data_append, data_append] at hd
        have hd' := List.append_cancel_left hd
        exact joinSegs_inj _ _ (by simp) (by simp) hpdf hqdf (str_eq_of_data _ _ hd')

theorem keysOf_map_pair (l : List (List String × String)) (f : List String × String → String) :
    keysOf (l.map (fun pv => (f pv, pv.2))) = l.map f := by
  show (l.map _).map Prod.fst = l.map f
  rw [List.map_map]
  rfl

theorem flat_keys_nodup_of_good (pfx : String) (obj : Obj) (hg : goodObjB obj = true) :
    ((pathEntries obj).map (fun pv => joinAfter pfx pv.1)).Nodup := by
  have hpw := pathEntries_nonalong obj hg
  rw [leafPaths, List.pairwise_map] at hpw
  have h2 : List.Pairwise (fun x y : List String × String =>
      joinAfter pfx x.1 ≠ joinAfter pfx y.1) (pathEntries obj) := by
    refine hpw.imp_of_mem ?_
    intro x y hx hy hR heq
    have hx1 := pathEntries_good obj hg x hx
    have hy1 := pathEntries_good obj hg y hy
    have heq1 := joinAfter_inj pfx x.1 y.1 hx1.1 hy1.1 hx1.2 hy1.2 heq
    have hfalse := hR.1
    rw [heq1, alongB_refl] at hfalse
    cases hfalse
  exact List.pairwise_map.mpr h2

mutual

theorem flattenAux_eq : ∀ (pfx : String) (obj : Obj) (acc : FlatMap),
    goodObjB obj = true →
    (∀ pv ∈ pathEntries obj, joinAfter pfx pv.1 ∉ keysOf acc) →
    flattenAux pfx obj acc
      = acc ++ (pathEntries obj).map (fun pv => (joinAfter pfx pv.1, pv.2))
  | _, [], acc, _, _ => by simp [flattenAux, pathEntries]
  | pfx, (k, t) :: rest, acc, hg, hf => by
      obtain ⟨hk, hknotin, ht, hrest⟩ := (goodObjB_cons k t rest).mp hg
      show flattenAux pfx rest (flattenEntry pfx k t acc) = _
      have hfOf : ∀ pv ∈ pathEntriesOf k t, joinAfter pfx pv.1 ∉ keysOf acc := by
        intro pv hpv
        refine hf pv ?_
        show pv ∈ pathEntriesOf k t ++ pathEntries rest
        exact List.mem_append.mpr (Or.inl hpv)
      rw [flattenEntry_eq pfx k t acc hk ht hfOf]
      rw [flattenAux_eq pfx rest _ hrest ?fresh]
      · show _ = acc ++ (pathEntriesOf k t ++ pathEntries rest).map _
        rw [List.map_append, List.append_assoc]
      case fresh =>
        intro pv hpv
        have hmem : pv ∈ pathEntries ((k, t) :: rest) := by
          show pv ∈ pathEntriesOf k t ++ pathEntries rest
          exact List.mem_append.mpr (Or.inr hpv)
        rw [keysOf_append, keysOf_map_pair, List.mem_append]
        push_neg
        refine ⟨hf pv hmem, ?_⟩
        intro hin
        obtain ⟨qv, hqv, he⟩ := List.mem_map.mp hin
        have hqgd := pathEntriesOf_good k t hk ht qv hqv
        have hpgd := pathEntries_good rest hrest pv hpv
        have heq := joinAfter_inj pfx qv.1 pv.1 hqgd.1 hpgd.1 hqgd.2 hpgd.2 he
        obtain ⟨qtl, hqhd⟩ := pathEntriesOf_head k t qv hqv
        obtain ⟨k', ptl, hphd, hk'⟩ := pathEntries_head rest pv hpv
        rw [hqhd, hphd] at heq
        injection heq with h1 _
        exact hknotin (h1 ▸ hk')

theorem flattenEntry_eq : ∀ (pfx k : String) (t : JTree) (acc : FlatMap),
    goodNameB k = true → goodTreeB t = true →
    (∀ pv ∈ pathEntriesOf k t, joinAfter pfx pv.1 ∉ keysOf acc) →
    flattenEntry pfx k t acc
      = acc ++ (pathEntriesOf k t).map (fun pv => (joinAfter pfx pv.1, pv.2))
  | pfx, k, .leaf s, acc, hk, _, hf => by
      show jsInsert acc (joinKey pfx k) s = _
      rw [jsInsert_of_not_mem acc (joinKey pfx k) s
        (show joinKey pfx k ∉ keysOf acc from hf ([k], s) (by simp [pathEntriesOf]))]
      rfl
  | pfx, k, .node ch, acc, hk, ht, hf => by
      obtain ⟨hchne, hchg⟩ := (goodTreeB_node ch).mp ht
      show jsAssign acc (flattenAux (joinKey pfx k) ch []) = _
      rw [flattenAux_eq (joinKey pfx k) ch [] hchg (by intro pv _; simp [keysOf]),
        List.nil_append]
      rw [jsAssign_of_disjoint _ acc ?nd ?dis]
      · congr 1
        show _ = ((pathEntries ch).map (fun pv => (k :: pv.1, pv.2))).map
          (fun pv => (joinAfter pfx pv.1, pv.2))
        rw [List.map_map]
        rfl
      case nd =>
        rw [keysOf_map_pair]
        exact flat_keys_nodup_of_good (joinKey pfx k) ch hchg
      case dis =>
        intro key hkey
        rw [keysOf_map_pair] at hkey
        obtain ⟨pv, hpv, he⟩ := List.mem_map.mp hkey
        have hmem : ((k :: pv.1, pv.2) : List String × String) ∈ pathEntriesOf k (.node ch) := by
          show _ ∈ (pathEntries ch).map _
          exact List.mem_map.mpr ⟨pv, hpv, rfl⟩
        have hnot := hf (k :: pv.1, pv.2) hmem
        have he' : joinAfter pfx (k :: pv.1) = key := he
        rwa [he'] at hnot

end

theorem flatten_eq (obj : Obj) (hg : goodObjB obj = true) :
    flatten obj = (pathEntries obj).map (fun pv => (joinSegs pv.1, pv.2)) := by
  show flattenAux "" obj [] = _
  rw [flattenAux_eq "" obj [] hg (by intro pv _; simp [keysOf]), List.nil_append]
  apply List.map_congr_left
  intro pv hpv
  obtain ⟨hne, hgood⟩ := pathEntries_good obj hg pv hpv
  obtain ⟨p, v⟩ := pv
  simp only at hne hgood ⊢
  cases p with
  | nil => exact absurd rfl hne
  | cons a as =>
      rw [joinAfter_empty a as (goodNameB_unpack a (hgood a (by simp))).1]

/-! ## C3 — rebuilding a flattened tree entry by entry -/

theorem jsLookup_append_right : ∀ (a b : List (String × α)) (k : String),
    k ∉ keysOf a → jsLookup (a ++ b) k = jsLookup b k := by
  intro a
  induction a with
  | nil =>
      intro b k _
      rfl
  | cons p rest ih =>
      intro b k hk
      obtain ⟨k', v'⟩ := p
      simp only [keysOf_cons, List.mem_cons] at hk
      push_neg at hk
      rw [List.cons_append, jsLookup_cons, if_neg (Ne.symm hk.1)]
      exact ih b k hk.2

theorem jsLookup_snoc (base : List (String × α)) (k : String) (x : α)
    (hk : k ∉ keysOf base) : jsLookup (base ++ [(k, x)]) k = some x := by
  rw [jsLookup_append_right base [(k, x)] k hk, jsLookup_cons, if_pos rfl]

theorem setPath_nil_eq : ∀ (parts : List String) (last v : String),
    setPath [] parts last v = .ok (nestObj parts [(last, .leaf v)]) := by
  intro parts
  induction parts with
  | nil =>
      intro last v
      rfl
  | cons p rest ih =>
      intro last v
      simp only [setPath, jsLookup_nil, ih last v]
      rfl

theorem setEnt_cons_none (acc : Obj) (a : String) (rest : List String) (v : String)
    (hne : rest ≠ []) (hlu : jsLookup acc a = none) :
    setEnt acc (a :: rest, v)
      = Except.map (fun sub => jsInsert acc a (.node sub)) (setEnt [] (rest, v)) := by
  cases rest with
  | nil => exact absurd rfl hne
  | cons b bs =>
      have hsE : setEnt ([] : Obj) (b :: bs, v)
          = setPath [] (frontLast b bs).1 (frontLast b bs).2 v := rfl
      rw [hsE]
      show setPath acc (a :: (frontLast b bs).1) (frontLast b bs).2 v = _
      simp only [setPath, hlu]
      cases h : setPath [] (frontLast b bs).1 (frontLast b bs).2 v with
      | error e => rfl
      | ok sub => rfl

theorem setEnt_cons_node (acc ch : Obj) (a : String) (rest : List String) (v : String)
    (hne : rest ≠ []) (hlu : jsLookup acc a = some (.node ch)) :
    setEnt acc (a :: rest, v)
      = Except.map (fun sub => jsInsert acc a (.node sub)) (setEnt ch (rest, v)) := by
  cases rest with
  | nil => exact absurd rfl hne
  | cons b bs =>
      have hsE : setEnt ch (b :: bs, v)
          = setPath ch (frontLast b bs).1 (frontLast b bs).2 v := rfl
      rw [hsE]
      show setPath acc (a :: (frontLast b bs).1) (frontLast b bs).2 v = _
      simp only [setPath, hlu]
      cases h : setPath ch (frontLast b bs).1 (frontLast b bs).2 v with
      | error e => rfl
      | ok sub => rfl

theorem setEnt_cons_leaf (acc : Obj) (a s : String) (rest : List String) (v : String)
    (hne : rest ≠ []) (hlu : jsLookup acc a = some (.leaf s)) :
    setEnt acc (a :: rest, v) = .error () := by
  cases rest with
  | nil => exact absurd rfl hne
  | cons b bs =>
      show setPath acc (a :: (frontLast b bs).1) (frontLast b bs).2 v = _
      simp only [setPath, hlu]

theorem setEnt_under (base cur : Obj) (k : String) (pv : List String × String)
    (hk : k ∉ keysOf base) (hne : pv.1 ≠ []) :
    setEnt (base ++ [(k, JTree.node cur)]) (k :: pv.1, pv.2)
      = Except.map (fun sub => base ++ [(k, JTree.node sub)]) (setEnt cur pv) := by
  obtain ⟨p1, v⟩ := pv
  simp only at hne ⊢
  rw [setEnt_cons_node _ cur k p1 v hne (jsLookup_snoc base k _ hk)]
  cases h : setEnt cur (p1, v) with
  | error e => rfl
  | ok sub =>
      rw [except_map_ok, except_map_ok,
        jsInsert_decomp base [] k (JTree.node cur) (JTree.node sub) hk]

theorem setEnt_fresh (acc : Obj) (k : String) (pv : List String × String)
    (hlu : jsLookup acc k = none) (hne : pv.1 ≠ []) :
    setEnt acc (k :: pv.1, pv.2)
      = Except.map (fun sub => acc ++ [(k, JTree.node sub)]) (setEnt [] pv) := by
  obtain ⟨p1, v⟩ := pv
  simp only at hne ⊢
  rw [setEnt_cons_none acc k p1 v hne hlu]
  cases h : setEnt ([] : Obj) (p1, v) with
  | error e => rfl
  | ok sub =>
      rw [except_map_ok, except_map_ok,
        jsInsert_of_not_mem acc k (JTree.node sub) ((jsLookup_none_iff acc k).mp hlu)]

theorem graftNodeFold : ∀ (l : List (List String × String)) (base cur : Obj) (k : String),
    k ∉ keysOf base → (∀ pv ∈ l, pv.1 ≠ []) →
    (l.map (fun pv => (k :: pv.1, pv.2))).foldlM setEnt (base ++ [(k, JTree.node cur)])
      = Except.map (fun sub => base ++ [(k, JTree.node sub)]) (l.foldlM setEnt cur) := by
  intro l
  induction l with
  | nil =>
      intro base cur k _ _
      rfl
  | cons pv l ih =>
      intro base cur k hk hne
      simp only [List.map_cons, List.foldlM_cons]
      rw [setEnt_under base cur k pv hk (hne pv (by simp))]
      cases h : setEnt cur pv with
      | error e =>
          simp only [except_map_error, except_bind_error]
      | ok cur1 =>
          simp only [except_map_ok, except_bind_ok]
          exact ih base cur1 k hk (fun q hq => hne q (by simp [hq]))

mutual

theorem graftObj : ∀ (ch acc : Obj), goodObjB ch = true →
    (∀ k0 ∈ keysOf ch, jsLookup acc k0 = none) →
    (pathEntries ch).foldlM setEnt acc = .ok (acc ++ ch)
  | [], acc, _, _ => by
      show pure acc = Except.ok (acc ++ [])
      rw [List.append_nil]
      rfl
  | (k, t) :: rest, acc, hg, hf => by
      obtain ⟨hk, hknotin, ht, hrest⟩ := (goodObjB_cons k t rest).mp hg
      show (pathEntriesOf k t ++ pathEntries rest).foldlM setEnt acc = _
      rw [foldlM_append_e, graftTree k t acc hk ht (hf k (by simp)), except_bind_ok]
      rw [graftObj rest (acc ++ [(k, t)]) hrest ?fresh]
      · rw [List.append_assoc]
        rfl
      case fresh =>
        intro k0 hk0
        have hne : k ≠ k0 := fun he => hknotin (he ▸ hk0)
        rw [jsLookup_append_right acc [(k, t)] k0
          ((jsLookup_none_iff acc k0).mp (hf k0 (by simp [hk0])))]
        simp [jsLookup_cons, hne]

theorem graftTree : ∀ (k : String) (t : JTree) (acc : Obj), goodNameB k = true →
    goodTreeB t = true → jsLookup acc k = none →
    (pathEntriesOf k t).foldlM setEnt acc = .ok (acc ++ [(k, t)])
  | k, .leaf s, acc, _, _, hlu => by
      show ([(([k], s) : List String × String)]).foldlM setEnt acc = _
      rw [List.foldlM_cons,
        show setEnt acc ([k], s) = Except.ok (jsInsert acc k (JTree.leaf s)) from rfl,
        except_bind_ok,
        jsInsert_of_not_mem acc k (JTree.leaf s) ((jsLookup_none_iff acc k).mp hlu)]
      rfl
  | k, .node ch, acc, hk, ht, hlu => by
      obtain ⟨hchne, hchg⟩ := (goodTreeB_node ch).mp ht
      have hobj := graftObj ch [] hchg (by intro k0 _; rfl)
      have hpne := pathEntries_ne_nil ch (goodObj_wf ch hchg) hchne
      show ((pathEntries ch).map (fun pv => (k :: pv.1, pv.2))).foldlM setEnt acc = _
      cases hpe : pathEntries ch with
      | nil => exact absurd hpe hpne
      | cons pv0 pes =>
          rw [hpe, List.foldlM_cons] at hobj
          simp only [List.map_cons, List.foldlM_cons]
          have hpv0ne : pv0.1 ≠ [] := by
            refine (pathEntries_good ch hchg pv0 ?_).1
            rw [hpe]
            simp
          rw [setEnt_fresh acc k pv0 hlu hpv0ne]
          cases h0 : setEnt ([] : Obj) pv0 with
          | error e =>
              rw [h0, except_bind_error] at hobj
              cases hobj
          | ok cur1 =>
              rw [h0, except_bind_ok] at hobj
              rw [except_map_ok, except_bind_ok]
              rw [graftNodeFold pes acc cur1 k ((jsLookup_none_iff acc k).mp hlu) ?hne]
              · rw [hobj, List.nil_append, except_map_ok]
              case hne =>
                intro pv hpv
                refine (pathEntries_good ch hchg pv ?_).1
                rw [hpe]
                simp [hpv]

end

theorem segsOf_ne_nil (k : String) : segsOf k ≠ [] := by
  intro h
  exact splitDots_ne_nil k.data (List.map_eq_nil_iff.mp h)

theorem unflattenStep_eq_setEnt (acc : Obj) (k v : String) (p : List String)
    (hp : segsOf k = p) (hne : p ≠ []) :
    unflattenStep acc (k, v) = setEnt acc (p, v) := by
  cases hs : splitDots k.data with
  | nil => exact absurd hs (splitDots_ne_nil k.data)
  | cons d ds =>
      rw [unflattenStep_eq acc k v d ds hs]
      have hparts : String.mk d :: ds.map String.mk = p := by
        rw [← hp, segsOf, hs, List.map_cons]
      cases p with
      | nil => exact absurd rfl hne
      | cons a as =>
          injection hparts with h1 h2
          subst h1
          subst h2
          rw [show setEnt acc (String.mk d :: ds.map String.mk, v)
              = setPath acc (frontLast (String.mk d) (ds.map String.mk)).1
                (frontLast (String.mk d) (ds.map String.mk)).2 v from rfl]
          rw [frontLast_fst, frontLast_snd _ _ (by simp)]

/-- C3 (amended): for every tree whose segment names are nonempty and
dot-free, whose objects have distinct keys, and whose nested objects are
all nonempty, `unflatten(flatten(T))` succeeds and returns `T` exactly. -/
theorem unflatten_flatten_roundtrip (obj : Obj) (hg : goodObjB obj = true) :
    unflatten (flatten obj) = .ok obj := by
  have hstep : ∀ pv ∈ pathEntries obj, ∀ acc : Obj,
      unflattenStep acc (joinSegs pv.1, pv.2) = setEnt acc pv := by
    intro pv hpv acc
    obtain ⟨hne, hgood⟩ := pathEntries_good obj hg pv hpv
    obtain ⟨p, v⟩ := pv
    simp only at hne hgood ⊢
    refine unflattenStep_eq_setEnt acc (joinSegs p) v p ?_ hne
    cases p with
    | nil => exact absurd rfl hne
    | cons a as =>
        exact segsOf_joinSegs (a :: as) (by simp)
          (fun s hs => (goodNameB_unpack s (hgood s hs)).2)
  have h1 : ((pathEntries obj).map (fun pv => (joinSegs pv.1, pv.2))).foldlM
        unflattenStep ([] : Obj)
      = (pathEntries obj).foldlM (fun acc pv => unflattenStep acc (joinSegs pv.1, pv.2)) [] :=
    foldlM_map_e _ _ _ _
  have h2 : (pathEntries obj).foldlM
        (fun acc pv => unflattenStep acc (joinSegs pv.1, pv.2)) ([] : Obj)
      = (pathEntries obj).foldlM setEnt [] :=
    foldlM_congr_e _ _ _ [] hstep
  have h3 := graftObj obj [] hg (by intro k0 _; rfl)
  rw [flatten_eq obj hg]
  show ((pathEntries obj).map (fun pv => (joinSegs pv.1, pv.2))).foldlM unflattenStep [] = _
  rw [h1, h2, h3, List.nil_append]

/-- C3 counterexample: the tree with a single empty nested object has no
dot inside any segment name and no object-vs-leaf path conflict, yet the
round trip loses it: `flatten` emits nothing for an empty object, so
`unflatten(flatten(T))` returns the empty object, not `T`. -/
theorem unflatten_flatten_not_id :
    unflatten (flatten [("a", JTree.node [])]) = .ok []
    ∧ unflatten (flatten [("a", JTree.node [])]) ≠ .ok [("a", JTree.node [])] := by decide

/-- Witness: the round trip on the worked nested example of the design
document. -/
theorem unflatten_flatten_roundtrip_witness :
    goodObjB [("auth", JTree.node [("login", JTree.node [("title", JTree.leaf "Sign in")]),
        ("logout", JTree.leaf "Log out")]), ("title", JTree.leaf "App")] = true
    ∧ unflatten (flatten [("auth", JTree.node
          [("login", JTree.node [("title", JTree.leaf "Sign in")]),
           ("logout", JTree.leaf "Log out")]), ("title", JTree.leaf "App")])
      = .ok [("auth", JTree.node [("login", JTree.node [("title", JTree.leaf "Sign in")]),
          ("logout", JTree.leaf "Log out")]), ("title", JTree.leaf "App")] :=
  ⟨by decide, unflatten_flatten_roundtrip _ (by decide)⟩

/-! ## C9 — the leaf paths written by `unflatten` -/

theorem leafPaths_append (a b : Obj) : leafPaths (a ++ b) = leafPaths a ++ leafPaths b := by
  rw [leafPaths, pathEntries_append, List.map_append]
  rfl

theorem leafPaths_nest (ps : List String) (last v : String) :
    leafPaths (nestObj ps [(last, .leaf v)]) = [ps ++ [last]] := by
  rw [leafPaths, pathEntries_nestObj]
  rfl

theorem leafPaths_single_leaf (k s : String) : leafPaths [(k, JTree.leaf s)] = [[k]] := rfl

theorem leafPaths_single_node (k : String) (ch : Obj) :
    leafPaths [(k, JTree.node ch)] = (leafPaths ch).map (fun q => k :: q) := by
  rw [leafPaths]
  show (pathEntriesOf k (.node ch) ++ pathEntries []).map Prod.fst = _
  rw [show pathEntries ([] : Obj) = [] from rfl, List.append_nil]
  show ((pathEntries ch).map _).map Prod.fst = _
  rw [List.map_map, leafPaths, List.map_map]
  rfl

theorem leafPaths_decomp (x y : Obj) (k : String) (ch : Obj) :
    leafPaths (x ++ (k, JTree.node ch) :: y)
      = leafPaths x ++ (leafPaths ch).map (fun q => k :: q) ++ leafPaths y := by
  rw [show ((k, JTree.node ch) :: y : Obj) = [(k, JTree.node ch)] ++ y from rfl]
  rw [leafPaths_append, leafPaths_append, leafPaths_single_node, ← List.append_assoc]

theorem wf_nest (ps : List String) (last v : String) :
    wfTreeB (.node (nestObj ps [(last, .leaf v)])) = true := by
  induction ps with
  | nil =>
      refine (wfTreeB_node _).mpr ⟨by simp [nestObj], ?_⟩
      exact (wfObjB_cons last (.leaf v) []).mpr ⟨by simp, rfl, rfl⟩
  | cons p ps ih =>
      refine (wfTreeB_node _).mpr ⟨by simp [nestObj], ?_⟩
      exact (wfObjB_cons p _ []).mpr ⟨by simp, ih, rfl⟩

theorem setPath_graft : ∀ (parts : List String) (W : Obj) (last v : String),
    wfObjB W = true →
    (∀ q ∈ leafPaths W, alongB q (parts ++ [last]) = false
        ∧ alongB (parts ++ [last]) q = false) →
    ∃ W2, setPath W parts last v = .ok W2
      ∧ wfObjB W2 = true
      ∧ (leafPaths W2).Perm ((parts ++ [last]) :: leafPaths W) := by
  intro parts
  induction parts with
  | nil =>
      intro W last v hwf hsep
      have hnm : last ∉ keysOf W := by
        intro hmem
        obtain ⟨t, ht⟩ := (mem_keysOf_iff W last).mp hmem
        cases t with
        | leaf s =>
            have hq := hsep [last]
              (List.mem_map_of_mem Prod.fst (pathEntries_mem_of_mem_leaf W last s ht))
            rw [List.nil_append] at hq
            exact absurd hq.1 (by rw [alongB_refl]; simp)
        | node ch =>
            have hwt := wf_mem_tree W last (JTree.node ch) hwf ht
            obtain ⟨hne, hchwf⟩ := (wfTreeB_node ch).mp hwt
            have hpne := pathEntries_ne_nil ch hchwf hne
            cases hpe : pathEntries ch with
            | nil => exact hpne hpe
            | cons pv0 pes =>
                have hmem0 : pv0 ∈ pathEntries ch := by
                  rw [hpe]
                  simp
                have hq := hsep (last :: pv0.1)
                  (List.mem_map_of_mem Prod.fst
                    (pathEntries_mem_of_mem_node W last ch pv0 ht hmem0))
                rw [List.nil_append] at hq
                have htrue : alongB [last] (last :: pv0.1) = true := by
                  rw [show ([last] : List String) = last :: [] from rfl, alongB_cons_same]
                  rfl
                exact absurd hq.2 (by rw [htrue]; simp)
      refine ⟨W ++ [(last, .leaf v)], ?_, ?_, ?_⟩
      · show Except.ok (jsInsert W last (.leaf v)) = _
        rw [jsInsert_of_not_mem W last _ hnm]
      · exact wf_append W last (.leaf v) hwf rfl hnm
      · rw [leafPaths_append, leafPaths_single_leaf, List.nil_append]
        exact List.perm_append_comm
  | cons p0 rest ih =>
      intro W last v hwf hsep
      cases hlu : jsLookup W p0 with
      | none =>
          refine ⟨W ++ [(p0, .node (nestObj rest [(last, .leaf v)]))], ?_, ?_, ?_⟩
          · show setPath W (p0 :: rest) last v = _
            simp only [setPath, hlu, setPath_nil_eq, except_bind_ok]
            rw [jsInsert_of_not_mem W p0 _ ((jsLookup_none_iff W p0).mp hlu)]
          · exact wf_append W p0 _ hwf (wf_nest rest last v)
              ((jsLookup_none_iff W p0).mp hlu)
          · rw [leafPaths_append, leafPaths_single_node, leafPaths_nest]
            rw [show ([rest ++ [last]].map (fun q => p0 :: q))
                = [p0 :: (rest ++ [last])] from rfl]
            rw [show ((p0 :: rest : List String) ++ [last]) = p0 :: (rest ++ [last]) from rfl]
            exact List.perm_append_comm
      | some t =>
          cases t with
          | leaf s =>
              have hmem : (p0, JTree.leaf s) ∈ W := mem_of_jsLookup W p0 _ hlu
              have hq := hsep [p0]
                (List.mem_map_of_mem Prod.fst (pathEntries_mem_of_mem_leaf W p0 s hmem))
              refine absurd hq.1 ?_
              rw [show ((p0 :: rest : List String) ++ [last]) = p0 :: (rest ++ [last]) from rfl]
              rw [show ([p0] : List String) = p0 :: [] from rfl, alongB_cons_same]
              simp [alongB]
          | node ch =>
              have hmem : (p0, JTree.node ch) ∈ W := mem_of_jsLookup W p0 _ hlu
              have hwt := wf_mem_tree W p0 _ hwf hmem
              obtain ⟨hchne, hchwf⟩ := (wfTreeB_node ch).mp hwt
              have hchsep : ∀ q ∈ leafPaths ch, alongB q (rest ++ [last]) = false
                  ∧ alongB (rest ++ [last]) q = false := by
                intro q' hq'
                obtain ⟨pv, hpv, hepv⟩ := List.mem_map.mp hq'
                have hmm : (p0 :: pv.1, pv.2) ∈ pathEntries W :=
                  pathEntries_mem_of_mem_node W p0 ch pv hmem hpv
                have hq := hsep (p0 :: pv.1) (List.mem_map_of_mem Prod.fst hmm)
                rw [hepv] at hq
                rw [show ((p0 :: rest : List String) ++ [last])
                    = p0 :: (rest ++ [last]) from rfl] at hq
                rw [alongB_cons_same, alongB_cons_same] at hq
                exact hq
              obtain ⟨sub, hsub, hsubwf, hsubperm⟩ := ih ch last v hchwf hchsep
              have hsubne : sub ≠ [] := by
                intro he
                have hlen := hsubperm.length_eq
                rw [he] at hlen
                simp [leafPaths, pathEntries] at hlen
              obtain ⟨x, y, hxy, hx⟩ := jsLookup_decomp W p0 _ hlu
              refine ⟨x ++ (p0, .node sub) :: y, ?_, ?_, ?_⟩
              · show setPath W (p0 :: rest) last v = _
                simp only [setPath, hlu, hsub, except_bind_ok]
                rw [hxy, jsInsert_decomp x y p0 _ _ hx]
              · exact wf_update x p0 (.node ch) (.node sub) y (hxy ▸ hwf)
                  ((wfTreeB_node sub).mpr ⟨hsubne, hsubwf⟩)
              · rw [hxy, leafPaths_decomp x y p0 sub, leafPaths_decomp x y p0 ch]
                rw [show ((p0 :: rest : List String) ++ [last])
                    = p0 :: (rest ++ [last]) from rfl]
                have hmap : ((leafPaths sub).map (fun q => p0 :: q)).Perm
                    ((p0 :: (rest ++ [last])) :: (leafPaths ch).map (fun q => p0 :: q)) := by
                  have := hsubperm.map (fun q => p0 :: q)
                  simpa using this
                refine ((hmap.append_left (leafPaths x)).append_right (leafPaths y)).trans ?_
                rw [List.append_assoc]
                rw [show ((p0 :: (rest ++ [last])) :: (leafPaths ch).map (fun q => p0 :: q))
                      ++ leafPaths y
                    = (p0 :: (rest ++ [last]))
                      :: ((leafPaths ch).map (fun q => p0 :: q) ++ leafPaths y) from rfl]
                refine List.perm_middle.trans ?_
                rw [← List.append_assoc]

theorem unflatten_graft : ∀ (F : FlatMap) (W : Obj),
    wfObjB W = true →
    List.Pairwise (fun p q => alongB p q = false ∧ alongB q p = false)
      ((keysOf F).map segsOf) →
    (∀ p ∈ (keysOf F).map segsOf, ∀ q ∈ leafPaths W,
        alongB p q = false ∧ alongB q p = false) →
    ∃ W2, F.foldlM unflattenStep W = .ok W2
      ∧ wfObjB W2 = true
      ∧ (leafPaths W2).Perm ((keysOf F).map segsOf ++ leafPaths W) := by
  intro F
  induction F with
  | nil =>
      intro W hwf _ _
      exact ⟨W, rfl, hwf, by simp⟩
  | cons kv F ih =>
      intro W hwf hpw hsep
      obtain ⟨k, v⟩ := kv
      simp only [keysOf_cons, List.map_cons] at hpw hsep ⊢
      cases hseg : segsOf k with
      | nil => exact absurd hseg (segsOf_ne_nil k)
      | cons a as =>
          rw [hseg] at hpw hsep
          have hstep : unflattenStep W (k, v) = setEnt W (a :: as, v) :=
            unflattenStep_eq_setEnt W k v (a :: as) hseg (by simp)
          have hfl : (frontLast a as).1 ++ [(frontLast a as).2] = a :: as :=
            frontLast_append as a
          have hsep1 : ∀ q ∈ leafPaths W,
              alongB q ((frontLast a as).1 ++ [(frontLast a as).2]) = false
              ∧ alongB ((frontLast a as).1 ++ [(frontLast a as).2]) q = false := by
            intro q hq
            rw [hfl]
            have h := hsep (a :: as) (by simp) q hq
            exact ⟨h.2, h.1⟩
          obtain ⟨W1, hW1, hW1wf, hW1perm⟩ :=
            setPath_graft (frontLast a as).1 W (frontLast a as).2 v hwf hsep1
          rw [hfl] at hW1perm
          have hsetEnt : setEnt W (a :: as, v) = .ok W1 := by
            show setPath W (frontLast a as).1 (frontLast a as).2 v = .ok W1
            exact hW1
          have hsep2 : ∀ p ∈ (keysOf F).map segsOf, ∀ q ∈ leafPaths W1,
              alongB p q = false ∧ alongB q p = false := by
            intro p hp q hq
            rcases List.mem_cons.mp (hW1perm.mem_iff.mp hq) with hq1 | hq1
            · subst hq1
              have hR := (List.pairwise_cons.mp hpw).1 p hp
              exact ⟨hR.2, hR.1⟩
            · exact hsep p (by simp [hp]) q hq1
          obtain ⟨W2, hW2, hW2wf, hW2perm⟩ := ih W1 hW1wf (List.pairwise_cons.mp hpw).2 hsep2
          refine ⟨W2, ?_, hW2wf, ?_⟩
          · rw [List.foldlM_cons, hstep, hsetEnt, except_bind_ok]
            exact hW2
          · refine hW2perm.trans ?_
            refine (hW1perm.append_left ((keysOf F).map segsOf)).trans ?_
            exact List.perm_middle

/-! ## C9 — `collectKeys` and the keys of `flatten` -/

mutual

theorem collectKeysAux_eq : ∀ (pfx : String) (obj : Obj),
    collectKeysAux pfx obj = (pathEntries obj).map (fun pv => joinAfter pfx pv.1)
  | _, [] => rfl
  | pfx, (k, t) :: rest => by
      show collectKeysEntry pfx k t ++ collectKeysAux pfx rest = _
      rw [collectKeysEntry_eq pfx k t, collectKeysAux_eq pfx rest]
      show _ = (pathEntriesOf k t ++ pathEntries rest).map _
      rw [List.map_append]

theorem collectKeysEntry_eq : ∀ (pfx k : String) (t : JTree),
    collectKeysEntry pfx k t = (pathEntriesOf k t).map (fun pv => joinAfter pfx pv.1)
  | pfx, k, .leaf s => rfl
  | pfx, k, .node ch => by
      show collectKeysAux (joinKey pfx k) ch = _
      rw [collectKeysAux_eq (joinKey pfx k) ch]
      show _ = ((pathEntries ch).map (fun pv => (k :: pv.1, pv.2))).map _
      rw [List.map_map]
      rfl

end

theorem collectKeys_eq (obj : Obj) :
    collectKeys obj = (leafPaths obj).map (joinAfter "") := by
  show collectKeysAux "" obj = _
  rw [collectKeysAux_eq "" obj, leafPaths, List.map_map]
  rfl

theorem keysOf_flatten_eq (obj : Obj) (hg : goodObjB obj = true) :
    keysOf (flatten obj) = (leafPaths obj).map joinSegs := by
  rw [flatten_eq obj hg, keysOf_map_pair, leafPaths, List.map_map]
  rfl

theorem collectKeys_eq_keys_flatten (obj : Obj) (hg : goodObjB obj = true) :
    collectKeys obj = keysOf (flatten obj) := by
  rw [collectKeys_eq, keysOf_flatten_eq obj hg]
  apply List.map_congr_left
  intro q hq
  obtain ⟨pv, hpv, he⟩ := List.mem_map.mp hq
  obtain ⟨hne, hgood⟩ := pathEntries_good obj hg pv hpv
  rw [he] at hne hgood
  cases q with
  | nil => exact absurd rfl hne
  | cons a as => exact joinAfter_empty a as (goodNameB_unpack a (hgood a (by simp))).1

/-! ## C9 — key sets through translation, grouping and merging -/

theorem translateSections_fold_ok_inv : ∀ (gs : Grouped) (oracle : String → FlatMap → FlatMap)
    (acc tg : Grouped),
    List.foldlM (fun acc sp => do
        let translated ← translateBatch sp.2 (oracle sp.1 sp.2)
        Except.ok (jsInsert acc sp.1 translated)) acc gs = .ok tg →
    tg = gs.foldl (fun acc sp => jsInsert acc sp.1 (oracle sp.1 sp.2)) acc
      ∧ ∀ sp ∈ gs, (keysOf sp.2).Perm (keysOf (oracle sp.1 sp.2)) := by
  intro gs
  induction gs with
  | nil =>
      intro oracle acc tg h
      have h' : Except.ok acc = Except.ok tg := h
      injection h' with h1
      subst h1
      exact ⟨rfl, by intro sp hsp; cases hsp⟩
  | cons sp gs ih =>
      intro oracle acc tg h
      simp only [List.foldlM_cons] at h
      by_cases hk : sortKeys (keysOf sp.2) = sortKeys (keysOf (oracle sp.1 sp.2))
      · have htb : translateBatch sp.2 (oracle sp.1 sp.2) = .ok (oracle sp.1 sp.2) := by
          simp only [translateBatch]
          rw [if_pos hk]
        rw [htb] at h
        simp only [except_bind_ok] at h
        obtain ⟨h1, h2⟩ := ih oracle _ tg h
        refine ⟨by rw [List.foldl_cons]; exact h1, ?_⟩
        intro sq hsq
        rcases List.mem_cons.mp hsq with he | hm
        · subst he
          exact (sortKeys_eq_iff _ _).mp hk
        · exact h2 sq hm
      · have htb : translateBatch sp.2 (oracle sp.1 sp.2)
            = .error (.keySetMismatch (sortKeys (keysOf sp.2))
                (sortKeys (keysOf (oracle sp.1 sp.2)))) := by
          simp only [translateBatch]
          rw [if_neg hk]
        rw [htb] at h
        simp only [except_bind_error] at h
        cases h

theorem translateSections_ok_inv (gs : Grouped) (oracle : String → FlatMap → FlatMap)
    (tg : Grouped) (h : translateSections oracle gs = .ok tg) :
    tg = gs.foldl (fun acc sp => jsInsert acc sp.1 (oracle sp.1 sp.2)) []
      ∧ ∀ sp ∈ gs, (keysOf sp.2).Perm (keysOf (oracle sp.1 sp.2)) :=
  translateSections_fold_ok_inv gs oracle [] tg h

theorem keysOf_joinSR_map (sec : String) (sub : FlatMap) :
    keysOf (sub.map (fun rv => (joinSR sec rv.1, rv.2)))
      = sub.map (fun rv => joinSR sec rv.1) := by
  show (sub.map _).map Prod.fst = _
  rw [List.map_map]
  rfl

theorem mem_keys_sectionPairs_iff : ∀ (G : Grouped) (k : String),
    k ∈ keysOf (sectionPairs G) ↔ ∃ sp ∈ G, ∃ rem ∈ keysOf sp.2, k = joinSR sp.1 rem := by
  intro G k
  induction G with
  | nil => simp [sectionPairs, keysOf]
  | cons sp G ih =>
      rw [show sectionPairs (sp :: G)
          = sp.2.map (fun rv => (joinSR sp.1 rv.1, rv.2)) ++ sectionPairs G from rfl]
      rw [keysOf_append, List.mem_append, ih]
      constructor
      · rintro (h | h)
        · rw [keysOf_joinSR_map sp.1 sp.2] at h
          obtain ⟨rv, hrv, he⟩ := List.mem_map.mp h
          exact ⟨sp, by simp, rv.1, List.mem_map_of_mem Prod.fst hrv, he.symm⟩
        · obtain ⟨sq, hsq, rem, hrem, he⟩ := h
          exact ⟨sq, by simp [hsq], rem, hrem, he⟩
      · rintro ⟨sq, hsq, rem, hrem, he⟩
        rcases List.mem_cons.mp hsq with h1 | h1
        · subst h1
          refine Or.inl ?_
          rw [keysOf_joinSR_map sq.1 sq.2]
          obtain ⟨w, hw⟩ := (mem_keysOf_iff _ rem).mp hrem
          exact List.mem_map.mpr ⟨(rem, w), hw, he.symm⟩
        · exact Or.inr ⟨sq, h1, rem, hrem, he⟩

theorem mem_keys_jsInsert_intro (m : List (String × α)) (k kk : String) (v : α)
    (h : k ∈ keysOf m ∨ k = kk) : k ∈ keysOf (jsInsert m kk v) := by
  rw [keysOf_jsInsert]
  by_cases hm : kk ∈ keysOf m
  · rw [if_pos hm]
    rcases h with h | h
    · exact h
    · exact h ▸ hm
  · rw [if_neg hm]
    rcases h with h | h
    · exact List.mem_append.mpr (Or.inl h)
    · exact List.mem_append.mpr (Or.inr (by simp [h]))

theorem mem_keys_ungroup_inner_intro : ∀ (l : FlatMap) (acc : FlatMap) (sec k : String),
    (k ∈ keysOf acc ∨ ∃ rv ∈ l, k = joinSR sec rv.1) →
    k ∈ keysOf (l.foldl (fun acc2 rv => jsInsert acc2 (joinSR sec rv.1) rv.2) acc) := by
  intro l
  induction l with
  | nil =>
      intro acc sec k h
      rcases h with h | h
      · exact h
      · obtain ⟨rv, hrv, _⟩ := h
        cases hrv
  | cons rv rest ih =>
      intro acc sec k h
      rw [List.foldl_cons]
      refine ih _ sec k ?_
      rcases h with h | h
      · exact Or.inl (mem_keys_jsInsert_intro acc k _ rv.2 (Or.inl h))
      · obtain ⟨rv', hrv', he⟩ := h
        rcases List.mem_cons.mp hrv' with h1 | h1
        · subst h1
          exact Or.inl (mem_keys_jsInsert_intro acc k _ rv'.2 (Or.inr he))
        · exact Or.inr ⟨rv', h1, he⟩

theorem mem_keys_ungroup_intro : ∀ (G : Grouped) (k : String),
    (∃ sp ∈ G, ∃ rem ∈ keysOf sp.2, k = joinSR sp.1 rem) →
    k ∈ keysOf (ungroupFromSections G) := by
  suffices hgen : ∀ (G : Grouped) (acc : FlatMap) (k : String),
      (k ∈ keysOf acc ∨ ∃ sp ∈ G, ∃ rem ∈ keysOf sp.2, k = joinSR sp.1 rem) →
      k ∈ keysOf (G.foldl (fun acc sp =>
        sp.2.foldl (fun acc2 rv => jsInsert acc2 (joinSR sp.1 rv.1) rv.2) acc) acc) by
    intro G k h
    exact hgen G [] k (Or.inr h)
  intro G
  induction G with
  | nil =>
      intro acc k h
      rcases h with h | h
      · exact h
      · obtain ⟨sp, hsp, _⟩ := h
        cases hsp
  | cons sp G ih =>
      intro acc k h
      rw [List.foldl_cons]
      refine ih _ k ?_
      rcases h with h | h
      · exact Or.inl (mem_keys_ungroup_inner_intro sp.2 acc sp.1 k (Or.inl h))
      · obtain ⟨sq, hsq, rem, hrem, he⟩ := h
        rcases List.mem_cons.mp hsq with h1 | h1
        · subst h1
          obtain ⟨w, hw⟩ := (mem_keysOf_iff _ rem).mp hrem
          exact Or.inl (mem_keys_ungroup_inner_intro sq.2 acc sq.1 k
            (Or.inr ⟨(rem, w), hw, he⟩))
        · exact Or.inr ⟨sq, h1, rem, hrem, he⟩

theorem keys_ungroup_map_oracle (fil : Grouped) (oracle : String → FlatMap → FlatMap)
    (hperm : ∀ sp ∈ fil, (keysOf sp.2).Perm (keysOf (oracle sp.1 sp.2))) (k : String) :
    k ∈ keysOf (ungroupFromSections (fil.map (fun sp => (sp.1, oracle sp.1 sp.2)))) ↔
      ∃ sp ∈ fil, ∃ rem ∈ keysOf sp.2, k = joinSR sp.1 rem := by
  constructor
  · intro h
    obtain ⟨sp, hsp, rv, hrv, he⟩ := mem_keys_ungroup _ k h
    obtain ⟨sq, hsq, hspe⟩ := List.mem_map.mp hsp
    have h1 : sp.1 = sq.1 := by rw [← hspe]
    have h2 : sp.2 = oracle sq.1 sq.2 := by rw [← hspe]
    refine ⟨sq, hsq, rv.1, ?_, by rw [he, h1]⟩
    refine (hperm sq hsq).symm.mem_iff.mp ?_
    rw [← h2]
    exact List.mem_map_of_mem Prod.fst hrv
  · rintro ⟨sp, hsp, rem, hrem, he⟩
    refine mem_keys_ungroup_intro _ k ?_
    refine ⟨(sp.1, oracle sp.1 sp.2), List.mem_map_of_mem _ hsp, rem, ?_, he⟩
    exact (hperm sp hsp).mem_iff.mp hrem

theorem mem_missingKeysOf (flattened existingFlat : FlatMap) (k : String) :
    k ∈ missingKeysOf flattened existingFlat ↔
      k ∈ keysOf flattened ∧ k ∉ keysOf existingFlat := by
  show k ∈ (keysOf flattened).filter _ ↔ _
  rw [List.mem_filter]
  constructor
  · rintro ⟨h1, h2⟩
    exact ⟨h1, (contains_false_iff _ _).mp (by rwa [Bool.not_eq_true'] at h2)⟩
  · rintro ⟨h1, h2⟩
    refine ⟨h1, ?_⟩
    rw [Bool.not_eq_true']
    exact (contains_false_iff _ _).mpr h2

theorem breakAtDot_none (cs : List Char) (h : ∀ c ∈ cs, c ≠ '.') : breakAtDot cs = none := by
  induction cs with
  | nil => rfl
  | cons c cs ih =>
      show (if c = '.' then some ([], cs) else
        match breakAtDot cs with
        | some (a, b) => some (c :: a, b)
        | none => none) = none
      rw [if_neg (h c (by simp)), ih (fun c1 hc1 => h c1 (by simp [hc1]))]

theorem breakAtDot_dotted : ∀ (xs ys : List Char), (∀ c ∈ xs, c ≠ '.') →
    breakAtDot (xs ++ '.' :: ys) = some (xs, ys) := by
  intro xs
  induction xs with
  | nil =>
      intro ys _
      show (if ('.' : Char) = '.' then some (([] : List Char), ys) else
        match breakAtDot ys with
        | some (a, b) => some ('.' :: a, b)
        | none => none) = _
      rw [if_pos rfl]
  | cons x xs ih =>
      intro ys h
      show (if x = '.' then some (([] : List Char), xs ++ '.' :: ys) else
        match breakAtDot (xs ++ '.' :: ys) with
        | some (a, b) => some (x :: a, b)
        | none => none) = _
      rw [if_neg (h x (by simp)), ih ys (fun c hc => h c (by simp [hc]))]

theorem goodKeyB_joinSegs (p : List String) (hne : p ≠ [])
    (hg : ∀ s ∈ p, goodNameB s = true) : goodKeyB (joinSegs p) = true := by
  cases p with
  | nil => exact absurd rfl hne
  | cons a as =>
      cases as with
      | nil =>
          show (match breakAtDot a.data with
            | none => true
            | some (_, b) => !b.isEmpty) = true
          rw [breakAtDot_none a.data (goodNameB_unpack a (hg a (by simp))).2]
      | cons b bs =>
          show (match breakAtDot (joinSegs (a :: b :: bs)).data with
            | none => true
            | some (_, r) => !r.isEmpty) = true
          rw [data_joinSegs_cons₂,
            breakAtDot_dotted a.data _ (goodNameB_unpack a (hg a (by simp))).2]
          show (!(joinSegs (b :: bs)).data.isEmpty) = true
          have hne2 := joinSegs_ne_empty b bs (goodNameB_unpack b (hg b (by simp))).1
          cases hd : (joinSegs (b :: bs)).data with
          | nil => exact absurd (str_eq_of_data _ "" (by rw [hd])) hne2
          | cons c cs => rfl

theorem pairwise_segsOf_flatten (T : Obj) (hg : goodObjB T = true) (M : List String)
    (hnd : M.Nodup) (hsub : ∀ k ∈ M, k ∈ keysOf (flatten T)) :
    List.Pairwise (fun p q => alongB p q = false ∧ alongB q p = false) (M.map segsOf) := by
  have hchar : ∀ k ∈ M, segsOf k ∈ leafPaths T ∧ joinSegs (segsOf k) = k := by
    intro k hk
    have h1 := hsub k hk
    rw [keysOf_flatten_eq T hg] at h1
    obtain ⟨q, hq, he⟩ := List.mem_map.mp h1
    obtain ⟨pv, hpv, hqe⟩ := List.mem_map.mp hq
    have hgq := pathEntries_good T hg pv hpv
    rw [hqe] at hgq
    have hsg : segsOf k = q := by
      rw [← he]
      cases q with
      | nil => exact absurd rfl hgq.1
      | cons a as =>
          exact segsOf_joinSegs (a :: as) (by simp)
            (fun s hs => (goodNameB_unpack s (hgq.2 s hs)).2)
    exact ⟨hsg ▸ hq, by rw [hsg, he]⟩
  have hpwT := pathEntries_nonalong T hg
  have hsym : Symmetric (fun p q : List String =>
      alongB p q = false ∧ alongB q p = false) := fun p q h => ⟨h.2, h.1⟩
  have h2 : List.Pairwise (fun x y : String =>
      alongB (segsOf x) (segsOf y) = false ∧ alongB (segsOf y) (segsOf x) = false) M := by
    refine List.Pairwise.imp_of_mem ?_ hnd
    intro x y hx hy hxy
    obtain ⟨hxq, hxj⟩ := hchar x hx
    obtain ⟨hyq, hyj⟩ := hchar y hy
    have hne : segsOf x ≠ segsOf y := by
      intro he
      exact hxy (by rw [← hxj, ← hyj, he])
    exact hpwT.forall hsym hxq hyq hne
  exact List.pairwise_map.mpr h2

theorem unflatten_merged_shape (T : Obj) (hg : goodObjB T = true)
    (existingFlat tf : FlatMap)
    (hexsub : ∀ k ∈ keysOf existingFlat, k ∈ keysOf (flatten T))
    (hexnd : (keysOf existingFlat).Nodup)
    (htfnd : (keysOf tf).Nodup)
    (htfsub : ∀ k ∈ keysOf tf, k ∈ keysOf (flatten T))
    (htfdis : ∀ k ∈ keysOf tf, k ∉ keysOf existingFlat)
    (hcover : ∀ k ∈ keysOf (flatten T), k ∈ keysOf existingFlat ∨ k ∈ keysOf tf) :
    ∃ W, unflatten (jsAssign (jsAssign [] existingFlat) tf) = .ok W
      ∧ sortKeys (collectKeys W) = sortKeys (collectKeys T) := by
  have hmerged : jsAssign (jsAssign [] existingFlat) tf = existingFlat ++ tf := by
    rw [jsAssign_empty_eq existingFlat hexnd, jsAssign_of_disjoint tf existingFlat htfnd htfdis]
  have hMnd : (keysOf (existingFlat ++ tf)).Nodup := by
    rw [keysOf_append, List.nodup_append]
    refine ⟨hexnd, htfnd, ?_⟩
    intro a ha hb
    exact (htfdis a hb) ha
  have hMsub : ∀ k ∈ keysOf (existingFlat ++ tf), k ∈ keysOf (flatten T) := by
    intro k hk
    rw [keysOf_append] at hk
    rcases List.mem_append.mp hk with h | h
    · exact hexsub k h
    · exact htfsub k h
  have hMperm : (keysOf (existingFlat ++ tf)).Perm (keysOf (flatten T)) := by
    refine (List.perm_ext_iff_of_nodup hMnd (flatten_keys_nodup T)).mpr ?_
    intro k
    constructor
    · intro hk
      exact hMsub k hk
    · intro hk
      rw [keysOf_append]
      rcases hcover k hk with h | h
      · exact List.mem_append.mpr (Or.inl h)
      · exact List.mem_append.mpr (Or.inr h)
  have hpw := pairwise_segsOf_flatten T hg (keysOf (existingFlat ++ tf)) hMnd hMsub
  obtain ⟨W, hW, hWwf, hWperm⟩ := unflatten_graft (existingFlat ++ tf) [] rfl hpw
    (by intro p _ q hq; simp [leafPaths, pathEntries] at hq)
  refine ⟨W, by rw [hmerged]; exact hW, ?_⟩
  rw [collectKeys_eq W, collectKeys_eq_keys_flatten T hg, sortKeys_eq_iff]
  have h1 : (leafPaths W).Perm ((keysOf (existingFlat ++ tf)).map segsOf) := by
    have h0 := hWperm
    rwa [show leafPaths ([] : Obj) = [] from rfl, List.append_nil] at h0
  refine (h1.map (joinAfter "")).trans ?_
  rw [List.map_map]
  have hid : ∀ k ∈ keysOf (existingFlat ++ tf), (joinAfter "" ∘ segsOf) k = id k := by
    intro k hk
    have hkT := hMsub k hk
    rw [keysOf_flatten_eq T hg] at hkT
    obtain ⟨q, hq, he⟩ := List.mem_map.mp hkT
    obtain ⟨pv, hpv, hqe⟩ := List.mem_map.mp hq
    have hgq := pathEntries_good T hg pv hpv
    rw [hqe] at hgq
    have hsg : segsOf k = q := by
      rw [← he]
      cases q with
      | nil => exact absurd rfl hgq.1
      | cons a as =>
          exact segsOf_joinSegs (a :: as) (by simp)
            (fun s hs => (goodNameB_unpack s (hgq.2 s hs)).2)
    show joinAfter "" (segsOf k) = k
    rw [hsg]
    cases q with
    | nil => exact absurd rfl hgq.1
    | cons a as =>
        rw [joinAfter_empty a as (goodNameB_unpack a (hgq.2 a (by simp))).1]
        exact he
  rw [List.map_congr_left hid, List.map_id]
  exact hMperm

theorem merged_shape_core (T : Obj) (hg : goodObjB T = true)
    (EF : FlatMap) (TT : Grouped) (oracle : String → FlatMap → FlatMap) (tg : Grouped)
    (hts : translateSections oracle TT = .ok tg)
    (hTTnd : (keysOf TT).Nodup)
    (hexsub : ∀ k ∈ keysOf EF, k ∈ keysOf (flatten T))
    (hexnd : (keysOf EF).Nodup)
    (hchar : ∀ k, (∃ sp ∈ TT, ∃ rem ∈ keysOf sp.2, k = joinSR sp.1 rem) ↔
        (k ∈ keysOf (flatten T) ∧ k ∉ keysOf EF)) :
    ∃ W0, unflatten (jsAssign (jsAssign [] EF) (ungroupFromSections tg)) = .ok W0
      ∧ sortKeys (collectKeys W0) = sortKeys (collectKeys T) := by
  obtain ⟨htg_eq, htg_perm⟩ := translateSections_ok_inv TT oracle tg hts
  have htgm : tg = TT.map (fun sp => (sp.1, oracle sp.1 sp.2)) := by
    rw [htg_eq]
    have h0 := jsInsert_fold_map TT [] (fun sp => oracle sp.1 sp.2) hTTnd (by simp)
    rw [List.nil_append] at h0
    exact h0
  have htfkeys : ∀ k, k ∈ keysOf (ungroupFromSections tg) ↔
      (k ∈ keysOf (flatten T) ∧ k ∉ keysOf EF) := by
    intro k
    rw [htgm, keys_ungroup_map_oracle TT oracle htg_perm k]
    exact hchar k
  refine unflatten_merged_shape T hg EF (ungroupFromSections tg) hexsub hexnd
    (ungroupFromSections_keys_nodup tg) ?_ ?_ ?_
  · intro k hk
    exact ((htfkeys k).mp hk).1
  · intro k hk
    exact ((htfkeys k).mp hk).2
  · intro k hk
    by_cases hke : k ∈ keysOf EF
    · exact Or.inl hke
    · exact Or.inr ((htfkeys k).mpr ⟨hk, hke⟩)

theorem processLanguage_shape_from_sections (T : Obj) (hg : goodObjB T = true)
    (missingOnly : Bool) (existing : Option Obj) (oracle : String → FlatMap → FlatMap)
    (o : LangOutcome) (W : Obj) (EF : FlatMap) (TT : Grouped)
    (hsec : sectionsFor missingOnly (flatten T) existing = some (EF, TT))
    (hTTnd : (keysOf TT).Nodup)
    (hexsub : ∀ k ∈ keysOf EF, k ∈ keysOf (flatten T))
    (hexnd : (keysOf EF).Nodup)
    (hchar : ∀ k, (∃ sp ∈ TT, ∃ rem ∈ keysOf sp.2, k = joinSR sp.1 rem) ↔
        (k ∈ keysOf (flatten T) ∧ k ∉ keysOf EF))
    (hrun : processLanguage missingOnly (flatten T) existing oracle = .ok o)
    (hw : o.written = some W) :
    sortKeys (collectKeys W) = sortKeys (collectKeys T) := by
  simp only [processLanguage, hsec] at hrun
  cases hts : translateSections oracle TT with
  | error e =>
      rw [hts] at hrun
      rw [except_bind_error] at hrun
      cases hrun
  | ok tg =>
      rw [hts] at hrun
      simp only [except_bind_ok] at hrun
      obtain ⟨W0, hW0, hshape⟩ :=
        merged_shape_core T hg EF TT oracle tg hts hTTnd hexsub hexnd hchar
      rw [hW0] at hrun
      have hrun2 : Except.ok (⟨TT.length, some W0⟩ : LangOutcome) = .ok o := hrun
      injection hrun2 with ho
      rw [← ho] at hw
      have hw2 : some W0 = some W := hw
      injection hw2 with hWe
      rw [← hWe]
      exact hshape

/-- C9 (amended): for a well-formed input tree (nonempty dot-free segment
names, distinct sibling keys, nonempty nested objects), every persisted
output tree has exactly the source's key paths — its sorted collected key
list equals the source tree's — provided that in incremental mode the
existing file's flattened keys are all source keys.  Without that proviso
the claim fails: stale keys of the existing file survive the merge. -/
theorem processLanguage_written_shape (missingOnly : Bool) (T : Obj) (existing : Option Obj)
    (oracle : String → FlatMap → FlatMap) (o : LangOutcome) (W : Obj)
    (hg : goodObjB T = true)
    (hex : missingOnly = true → ∀ t, existing = some t →
      ∀ k ∈ keysOf (flatten t), k ∈ keysOf (flatten T))
    (hrun : processLanguage missingOnly (flatten T) existing oracle = .ok o)
    (hw : o.written = some W) :
    sortKeys (collectKeys W) = sortKeys (collectKeys T) := by
  have hfnd := flatten_keys_nodup T
  have hkeysgood : ∀ k ∈ keysOf (flatten T), goodKeyB k = true := by
    intro k hk
    rw [keysOf_flatten_eq T hg] at hk
    obtain ⟨q, hq, he⟩ := List.mem_map.mp hk
    obtain ⟨pv, hpv, hqe⟩ := List.mem_map.mp hq
    have hgq := pathEntries_good T hg pv hpv
    rw [hqe] at hgq
    rw [← he]
    exact goodKeyB_joinSegs q hgq.1 hgq.2
  have hsp := sectionPairs_groupBySection (flatten T) hkeysgood hfnd
  have hspk : (keysOf (sectionPairs (groupBySection (flatten T)))).Perm
      (keysOf (flatten T)) := hsp.map Prod.fst
  have hgnd := groupBySection_keys_nodup (flatten T)
  have hgsub := groupBySection_sub_nodup (flatten T)
  have hcharFull : ∀ k, (∃ sp ∈ groupBySection (flatten T), ∃ rem ∈ keysOf sp.2,
      k = joinSR sp.1 rem) ↔ (k ∈ keysOf (flatten T) ∧ k ∉ keysOf ([] : FlatMap)) := by
    intro k
    rw [← mem_keys_sectionPairs_iff, hspk.mem_iff]
    simp [keysOf]
  cases existing with
  | none =>
      have hsec : sectionsFor missingOnly (flatten T) none
          = some ([], groupBySection (flatten T)) := by
        cases missingOnly <;> rfl
      exact processLanguage_shape_from_sections T hg missingOnly none oracle o W
        [] (groupBySection (flatten T)) hsec hgnd
        (by intro k hk; simp [keysOf] at hk) (by simp [keysOf]) hcharFull hrun hw
  | some t =>
      cases missingOnly with
      | false =>
          have hsec : sectionsFor false (flatten T) (some t)
              = some ([], groupBySection (flatten T)) := rfl
          exact processLanguage_shape_from_sections T hg false (some t) oracle o W
            [] (groupBySection (flatten T)) hsec hgnd
            (by intro k hk; simp [keysOf] at hk) (by simp [keysOf]) hcharFull hrun hw
      | true =>
          by_cases hM : missingKeysOf (flatten T) (flatten t) = []
          · have hsec : sectionsFor true (flatten T) (some t) = none := by
              simp only [sectionsFor]
              rw [if_pos hM]
            simp only [processLanguage, hsec] at hrun
            have hrun2 : Except.ok (⟨0, none⟩ : LangOutcome) = .ok o := hrun
            injection hrun2 with ho
            rw [← ho] at hw
            have hw2 : (none : Option Obj) = some W := hw
            cases hw2
          · have hsec : sectionsFor true (flatten T) (some t)
                = some (flatten t, filterGroupedByKeys (groupBySection (flatten T))
                    (missingKeysOf (flatten T) (flatten t))) := by
              simp only [sectionsFor]
              rw [if_neg hM]
            have hTTe : filterGroupedByKeys (groupBySection (flatten T))
                  (missingKeysOf (flatten T) (flatten t))
                = filterGroupedSpec (missingKeysOf (flatten T) (flatten t))
                    (groupBySection (flatten T)) :=
              filterGroupedByKeys_eq _ _ hgnd hgsub
            have hTTnd : (keysOf (filterGroupedByKeys (groupBySection (flatten T))
                (missingKeysOf (flatten T) (flatten t)))).Nodup := by
              rw [hTTe]
              exact filterGroupedSpec_keys_nodup _ _ hgnd
            have hcharInc : ∀ k, (∃ sp ∈ filterGroupedByKeys (groupBySection (flatten T))
                  (missingKeysOf (flatten T) (flatten t)), ∃ rem ∈ keysOf sp.2,
                  k = joinSR sp.1 rem) ↔
                (k ∈ keysOf (flatten T) ∧ k ∉ keysOf (flatten t)) := by
              intro k
              rw [hTTe, ← mem_missingKeysOf (flatten T) (flatten t) k]
              constructor
              · rintro ⟨sp, hsp, rem, hrem, he⟩
                obtain ⟨-, sub, -, hform⟩ := filterGroupedSpec_sound _ _ sp hsp
                obtain ⟨w, hw1⟩ := (mem_keysOf_iff _ rem).mp hrem
                rw [hform] at hw1
                have hc := (List.mem_filter.mp hw1).2
                rw [he]
                exact (contains_true_iff _ _).mp hc
              · intro hkM
                have hkT : k ∈ keysOf (flatten T) :=
                  ((mem_missingKeysOf (flatten T) (flatten t) k).mp hkM).1
                obtain ⟨sp0, hsp0, rem, hrem, he⟩ :=
                  (mem_keys_sectionPairs_iff (groupBySection (flatten T)) k).mp
                    (hspk.symm.mem_iff.mp hkT)
                obtain ⟨w, hw1⟩ := (mem_keysOf_iff _ rem).mp hrem
                have hc : (missingKeysOf (flatten T) (flatten t)).contains
                    (joinSR sp0.1 rem) = true := by
                  rw [← he]
                  exact (contains_true_iff _ _).mpr hkM
                obtain ⟨fs, hfs, hrvfs⟩ := filterGroupedSpec_complete
                  (groupBySection (flatten T)) (missingKeysOf (flatten T) (flatten t))
                  sp0.1 sp0.2 (rem, w) hsp0 hw1 hc
                exact ⟨(sp0.1, fs), hfs, rem, List.mem_map_of_mem Prod.fst hrvfs, he⟩
            exact processLanguage_shape_from_sections T hg true (some t) oracle o W
              (flatten t) (filterGroupedByKeys (groupBySection (flatten T))
                (missingKeysOf (flatten T) (flatten t))) hsec hTTnd
              (hex rfl t rfl) (flatten_keys_nodup t) hcharInc hrun hw

/-- C9 counterexample: an incremental run against an existing file that
contains a key absent from the source (`b`).  The run is missing only `c`,
translates only that section, merges over the existing mapping and writes
a tree that still contains `b` — so the persisted tree is not structurally
isomorphic to the input tree. -/
theorem processLanguage_stale_key :
    processLanguage true (flatten [("a", JTree.leaf "x"), ("c", JTree.leaf "w")])
        (some [("a", JTree.leaf "y"), ("b", JTree.leaf "z")]) (fun _ st => st)
      = .ok ⟨1, some [("a", JTree.leaf "y"), ("b", JTree.leaf "z"), ("c", JTree.leaf "w")]⟩
    ∧ sortKeys (collectKeys [("a", JTree.leaf "y"), ("b", JTree.leaf "z"),
          ("c", JTree.leaf "w")])
      ≠ sortKeys (collectKeys [("a", JTree.leaf "x"), ("c", JTree.leaf "w")]) := by decide

/-- Witness: a full-retranslation run whose oracle rewrites every value;
the written tree differs from the source in every leaf but has exactly the
source's sorted key-path list. -/
theorem processLanguage_written_shape_witness :
    goodObjB [("auth", JTree.node [("title", JTree.leaf "Sign in")]),
        ("title", JTree.leaf "App")] = true
    ∧ processLanguage false
        (flatten [("auth", JTree.node [("title", JTree.leaf "Sign in")]),
          ("title", JTree.leaf "App")]) none (fun _ st => st.map (fun kv => (kv.1, "X")))
      = .ok ⟨2, some [("auth", JTree.node [("title", JTree.leaf "X")]),
          ("title", JTree.leaf "X")]⟩
    ∧ sortKeys (collectKeys [("auth", JTree.node [("title", JTree.leaf "X")]),
          ("title", JTree.leaf "X")])
      = sortKeys (collectKeys [("auth", JTree.node [("title", JTree.leaf "Sign in")]),
          ("title", JTree.leaf "App")]) :=
  ⟨by decide, by decide,
    processLanguage_written_shape false
      [("auth", JTree.node [("title", JTree.leaf "Sign in")]), ("title", JTree.leaf "App")]
      none (fun _ st => st.map (fun kv => (kv.1, "X")))
      ⟨2, some [("auth", JTree.node [("title", JTree.leaf "X")]),
        ("title", JTree.leaf "X")]⟩
      [("auth", JTree.node [("title", JTree.leaf "X")]), ("title", JTree.leaf "X")]
      (by decide)
      (fun h => absurd h (by decide))
      (by decide) rfl⟩
